import Mathlib

/-!
Verification of the carp chess engine's board, move-generation, transposition
table and search components against its specification.

Conventions of the embedding:
* Rust machine integers are modelled as `Nat`/`Int` with explicit wrapping
  (`% 256` for `u8`, `% 2^64` masks for `u64`, explicit two's-complement
  wrapping for `i16`).  Bitboards (`u64`) are `Nat` values below `2^64`.
* Squares are indices `0..63` in A8,B8,...,H1 order, exactly as the `Square`
  enum discriminants of the source.
* Fallible operations return `Option`.
* Components of the repository whose source files are not available
  (move encoding, castling tables, Zobrist keys, attack tables, the search
  `Position` wrapper) are modelled from the specification text; every such
  definition is marked `Modelled from the spec:` in its doc comment.
-/

namespace Carp

/-! ## Colors and pieces (src/piece.rs) -/
/-- Piece/player color enum (`Color` in src/piece.rs). -/
inductive Color where
  | White
  | Black
deriving DecidableEq, Repr

/-- Opposite color (`impl Not for Color`, `self as u8 ^ 1`). -/
def Color.flip : Color → Color
  | .White => .Black
  | .Black => .White

/-- Chess piece enum including color (`Piece` in src/piece.rs).
Discriminants are 0..11 in the listed order; the least significant bit is
the color. -/
inductive Piece where
  | WP | BP | WN | BN | WB | BB | WR | BR | WQ | BQ | WK | BK
deriving DecidableEq, Repr

/-- Numeric discriminant of a piece (`self as u8`). -/
def Piece.idx : Piece → Nat
  | .WP => 0 | .BP => 1 | .WN => 2 | .BN => 3 | .WB => 4 | .BB => 5
  | .WR => 6 | .BR => 7 | .WQ => 8 | .BQ => 9 | .WK => 10 | .BK => 11

/-- Piece color (`Piece::color`, low bit of the discriminant). -/
def Piece.color (p : Piece) : Color :=
  if p.idx % 2 == 0 then .White else .Black

/-- Color-indexed piece constructors (`Color::pawn`, ..., `Color::king`,
`from!(val + self as u8, 15)`). -/
def Color.pawn : Color → Piece
  | .White => .WP
  | .Black => .BP

def Color.knight : Color → Piece
  | .White => .WN
  | .Black => .BN

def Color.bishop : Color → Piece
  | .White => .WB
  | .Black => .BB

def Color.rook : Color → Piece
  | .White => .WR
  | .Black => .BR

def Color.queen : Color → Piece
  | .White => .WQ
  | .Black => .BQ

def Color.king : Color → Piece
  | .White => .WK
  | .Black => .BK

/-- All pieces of one color in search order (`PIECES` in src/piece.rs,
pawn, knight, bishop, rook, queen, king). -/
def piecesOf (c : Color) : List Piece :=
  [c.pawn, c.knight, c.bishop, c.rook, c.queen, c.king]

/-- All twelve pieces (`ALL_PIECES` in src/piece.rs). -/
def allPieces : List Piece :=
  [.WP, .BP, .WN, .BN, .WB, .BB, .WR, .BR, .WQ, .BQ, .WK, .BK]

/-! ## Square algebra (src/square.rs)

Squares are `Nat` indices; the enum `Square` of the source has
discriminants 0 (A8) .. 63 (H1).  The `from!` macro transmutes `x & mask`
on a `u8`, so every operation below first wraps to `u8` range and then
masks with 63. -/
/-- The square index of A8/H1, E1/E8 etc. by name, for readability. -/
def sqA8 : Nat := 0

def sqH8 : Nat := 7

def sqA1 : Nat := 56

def sqE1 : Nat := 60

def sqH1 : Nat := 63

def sqE8 : Nat := 4

/-- The `impl From<usize> for Square`: `from!(index as u8, 63)`; the `usize`
is first truncated to `u8`, then the low 6 bits are kept. -/
def squareFromUsize (index : Nat) : Nat :=
  (index % 256) &&& 63

/-- Square one step to the right in enum order (`Square::right`,
`from!(self as u8 + 1, 63)`). -/
def squareRight (s : Nat) : Nat :=
  ((s + 1) % 256) &&& 63

/-- Square one step to the left in enum order (`Square::left`,
`from!((self as u8).wrapping_sub(1), 63)`). -/
def squareLeft (s : Nat) : Nat :=
  ((s + 255) % 256) &&& 63

/-- Square one rank down the board (`Square::down`,
`from!(self as u8 + 8, 63)`). -/
def squareDown (s : Nat) : Nat :=
  ((s + 8) % 256) &&& 63

/-- Square one rank up the board (`Square::up`,
`from!((self as u8).wrapping_sub(8), 63)`). -/
def squareUp (s : Nat) : Nat :=
  ((s + 248) % 256) &&& 63

/-- Source file coordinate (`Square::file`, `from!(self as u8, 7)`). -/
def squareFile (s : Nat) : Nat :=
  (s % 256) &&& 7

/-- Source rank coordinate (`Square::rank`, `from!(self as u8 >> 3, 7)`). -/
def squareRank (s : Nat) : Nat :=
  ((s % 256) >>> 3) &&& 7

/-- Square from coordinates (`Square::from_coords`,
`from!((rank as u8) << 3 ^ (file as u8), 63)`). -/
def squareFromCoords (file rank : Nat) : Nat :=
  ((rank <<< 3) ^^^ file) &&& 63

/-! ## Move encoding (moves.rs is not among the available sources)

Modelled from the spec: a `Move` is a packed record carrying source square,
target square, moving piece, captured piece (or sentinel), promotion piece
(or sentinel) and flag bits for capture, double-push, en-passant, castle
and promotion.  We model the record with explicit fields; the sentinel for
the capture/promotion fields is `WP` as in a zeroed bitfield. -/
structure Move where
  src : Nat
  tgt : Nat
  piece : Piece
  capture : Piece
  promotion : Piece
  isCapture : Bool
  isDoublePush : Bool
  isEnpassant : Bool
  isCastle : Bool
  isPromotion : Bool
deriving DecidableEq, Repr

/-- Modelled from the spec: the `NULL_MOVE` sentinel (an all-zero record). -/
def NULL_MOVE : Move :=
  ⟨0, 0, .WP, .WP, .WP, false, false, false, false, false⟩

/-! ## Transposition table (src/tt.rs) -/
/-- Entry flag (`TTFlag` in src/tt.rs). -/
inductive TTFlag where
  | Exact
  | Upper
  | Lower
deriving DecidableEq, Repr

/-- The `NULL_HASH` key; `ZHash(0)` marks an empty slot. -/
def NULL_HASH : Nat := 0

/-- One table slot (`TTField` in src/tt.rs). -/
structure TTField where
  key : Nat
  bestMove : Move
  depth : Nat
  step : Nat
  value : Int
  flag : TTFlag
deriving DecidableEq, Repr

/-- The empty slot used to fill the table (`impl Default for TTField`). -/
def TTField.emptyField : TTField :=
  ⟨NULL_HASH, NULL_MOVE, 0, 0, 0, .Exact⟩

/-- The table (`TT` in src/tt.rs): a vector of fields indexed by
`hash & bitmask`; the constructor guarantees `table.len() = bitmask + 1`. -/
structure TT where
  table : List TTField
  bitmask : Nat
deriving DecidableEq, Repr

/-- `TT::probe`: read the slot at `hash & bitmask` and return it only on an
exact 64-bit key match. -/
def TT.probe (tt : TT) (hash : Nat) : Option TTField :=
  let ttIndex := hash &&& tt.bitmask
  let field := tt.table.getD ttIndex TTField.emptyField
  if field.key = hash then some field else none

/-- `TT::insert`: replace the slot at `entry.key & bitmask` when the keys
differ and the entry is newer (`step` strictly greater) or at least as deep
(`depth` greater or equal). -/
def TT.insert (tt : TT) (entry : TTField) : TT :=
  let ttIndex := entry.key &&& tt.bitmask
  let field := tt.table.getD ttIndex TTField.emptyField
  if entry.key ≠ field.key ∧ (entry.step > field.step ∨ entry.depth ≥ field.depth)
  then { tt with table := tt.table.set ttIndex entry }
  else tt

/-! ## C9: history bonus and the gravity update (src/engine/search_tables.rs) -/
/-- Two's-complement wrap of an integer to `i16` range (the Rust `as i16`
cast). -/
def toI16 (x : Int) : Int :=
  (x + 32768) % 65536 - 32768

/-- The history bonus (`history_bonus` in src/engine/search_tables.rs):
`400.min(depth * depth) as i16`. -/
def history_bonus (depth : Nat) : Int :=
  toI16 ((Nat.min 400 (depth * depth) : Nat) : Int)

/-- The gravity update (`taper_bonus` in src/engine/search_tables.rs):
`(o + 8 * b - (o * b.abs()) / 2048) as i16`, computed in `i32`.  For `i16`
range inputs the `i32` intermediate arithmetic cannot overflow (the
magnitude is at most `32768 + 8 * 32768 + 2^30 / 2048 < 2^31`), so the
`i32` operations are modelled exactly; Rust `/` on `i32` truncates toward
zero, which is `Int.tdiv`. -/
def taper_bonus (bonus old : Int) : Int :=
  toI16 (old + 8 * bonus - Int.tdiv (old * |bonus|) 2048)

/-! ## Search (src/search.rs)

The control flow of `Search::negamax` and `Search::quiescence` is embedded
one call frame at a time: the mutable search state (`stop`, `nodes`,
`seldepth`) is threaded explicitly, and the operations of the missing
`Position`/`Clock`/`evaluation` modules, together with the results of the
recursive search calls, are supplied by an oracle record `SearchEnv`
(modelled from the spec).  Transposition-table reads go through the real
`TT.probe` of src/tt.rs; the entries this frame would insert are returned
as a log. -/
/-- Search constants of src/search.rs. -/
def MAX_DEPTH : Nat := 128

def LMR_THRESHOLD : Nat := 4

def LMR_LOWER_LIMIT : Nat := 3

def NMP_REDUCTION : Nat := 2

def FUTILITY_MARGIN : Int := 1100

/-- The mutable search bookkeeping of `Search` (stop flag, node counter,
selective depth). -/
structure SState where
  stop : Bool
  nodes : Nat
  seldepth : Nat
deriving DecidableEq, Repr

/-- Modelled from the spec: the collaborators of one search frame.  The
missing `Position` type is an abstract `σ`; `recurse`/`qrecurse` give the
value and updated bookkeeping of a recursive `negamax`/`quiescence` call;
`getValue`/`newField` are the mate-normalizing TT entry accessors of the
missing tt helpers; `mate` is the `MATE` constant of the missing
evaluation module and `isMateScore` its `is_mate` predicate. -/
structure SearchEnv (σ : Type) where
  tt : TT
  mate : Int
  isMateScore : Int → Bool
  midCheck : Nat → Bool
  kingInCheck : σ → Bool
  ply : σ → Nat
  isDraw : σ → Bool
  hash : σ → Nat
  onlyKingPawnsLeft : σ → Bool
  evaluate : σ → Int
  makeMove : σ → Move → σ
  makeNull : σ → σ
  updateSorter : σ → Move → Nat → σ
  generateMoves : σ → Option Move → List (Move × Int)
  generateCaptures : σ → List (Move × Int)
  getValue : TTField → Nat → Int
  newField : σ → TTFlag → Move → Int → Nat → TTField
  recurse : σ → Int → Int → Nat → SState → Int × SState
  qrecurse : σ → Int → Int → SState → Int × SState

/-- The capture loop of `Search::quiescence`: iterate scored captures,
stop at the first negative SEE score, recurse with the negated window and
do the standard alpha/beta update (`return beta` on a fail-high). -/
def qloop {σ : Type} (env : SearchEnv σ) (pos : σ) (st : SState)
    (alpha beta : Int) : List (Move × Int) → Int × SState
  | [] => (alpha, st)
  | (m, s) :: rest =>
    if s < 0 then (alpha, st)
    else
      let r := env.qrecurse (env.makeMove pos m) (-beta) (-alpha) st
      let eval := -r.1
      if eval > alpha then
        if eval ≥ beta then (beta, r.2)
        else qloop env pos r.2 eval beta rest
      else qloop env pos r.2 alpha beta rest

/-- `Search::quiescence` (src/search.rs lines 291-334): stop/clock check,
node and seldepth bookkeeping, stand-pat evaluation, max-ply check,
fail-high check, delta/futility pruning, then the capture loop. -/
def quiescence {σ : Type} (env : SearchEnv σ) (pos : σ) (st : SState)
    (alpha beta : Int) : Int × SState :=
  if st.stop || !env.midCheck st.nodes then
    (0, { st with stop := true })
  else
    let st := { st with nodes := st.nodes + 1 }
    let st := { st with seldepth := max st.seldepth (env.ply pos) }
    let eval := env.evaluate pos
    if env.ply pos ≥ MAX_DEPTH then (eval, st)
    else if eval ≥ beta then (beta, st)
    else if eval < alpha - FUTILITY_MARGIN then (alpha, st)
    else
      let alpha := max eval alpha
      qloop env pos st alpha beta (env.generateCaptures pos)

/-- The transposition-table phase of `Search::negamax`: on a probe hit of
sufficient depth an `Exact` entry returns immediately, `Upper`/`Lower`
entries tighten `beta`/`alpha` and return on an indirect cutoff; otherwise
search continues with the (possibly tightened) window and the stored move
as ordering hint. -/
def ttPhase (tt : TT) (getValue : TTField → Nat → Int) (hash ply depth : Nat)
    (alpha beta : Int) : Sum (Int × Int × Option Move) Int :=
  match TT.probe tt hash with
  | some entry =>
    if entry.depth ≥ depth then
      let ttEval := getValue entry ply
      match entry.flag with
      | .Exact => Sum.inr ttEval
      | .Upper =>
        let beta := min beta ttEval
        if alpha ≥ beta then Sum.inr ttEval
        else Sum.inl (alpha, beta, some entry.bestMove)
      | .Lower =>
        let alpha := max alpha ttEval
        if alpha ≥ beta then Sum.inr ttEval
        else Sum.inl (alpha, beta, some entry.bestMove)
    else Sum.inl (alpha, beta, some entry.bestMove)
  | none => Sum.inl (alpha, beta, none)

/-- The null-move-pruning phase of `Search::negamax`: when applicable,
search a null move with a zero-width window at reduced depth and report a
beta cutoff unless the returned value is a mate score. -/
def nmpPhase {σ : Type} (env : SearchEnv σ) (pos : σ) (st : SState)
    (beta : Int) (depth : Nat) (pvNode inCheck : Bool) :
    Option Int × SState :=
  if decide (depth > NMP_REDUCTION) && !pvNode && !inCheck
      && !env.onlyKingPawnsLeft pos then
    let r := env.recurse (env.makeNull pos) (-beta) (-beta + 1)
      (depth - 1 - NMP_REDUCTION) st
    let eval := -r.1
    if eval ≥ beta ∧ env.isMateScore |eval| = false then (some beta, r.2)
    else (none, r.2)
  else (none, st)

/-- Outcome of the main move loop of `Search::negamax`: either the whole
search was stopped mid-loop (`return 0`), or the loop finished with the
final alpha, TT bound, best move, number of moves tried and bookkeeping. -/
inductive LoopResult where
  | stopped (st : SState)
  | done (alpha : Int) (bound : TTFlag) (best : Move) (movesChecked : Nat)
      (st : SState)

/-- The move loop of `Search::negamax`: full-window search on the first
move, LMR/PVS null-window searches afterwards, early `return 0` when the
stop flag was raised by a child, beta cutoff (with a quiet-move sorter
update) setting `alpha = beta` and bound `Lower`, and `Exact` bound on an
alpha improvement. -/
def nloop {σ : Type} (env : SearchEnv σ) (pos : σ) (depth : Nat)
    (inCheck : Bool) (st : SState) (alpha beta : Int) (mc : Nat)
    (best : Move) (bound : TTFlag) : List (Move × Int) → LoopResult
  | [] => .done alpha bound best mc st
  | (m, _) :: rest =>
    let mc := mc + 1
    let child := env.makeMove pos m
    if mc = 1 then
      let r := env.recurse child (-beta) (-alpha) (depth - 1) st
      let eval := -r.1
      if r.2.stop then .stopped r.2
      else if eval > alpha then
        if eval ≥ beta then
          let _sorted := if !m.isCapture then env.updateSorter pos m depth else pos
          .done beta .Lower m mc r.2
        else nloop env pos depth inCheck r.2 eval beta mc m .Exact rest
      else nloop env pos depth inCheck r.2 alpha beta mc m bound rest
    else
      let r1 :=
        if decide (mc ≥ LMR_THRESHOLD) && decide (depth ≥ LMR_LOWER_LIMIT)
            && !inCheck && !m.isCapture && !m.isPromotion then
          let r := env.recurse child (-alpha - 1) (-alpha) (depth - 2) st
          (-r.1, r.2)
        else (alpha + 1, st)
      let r2 :=
        if r1.1 > alpha then
          let r := env.recurse child (-alpha - 1) (-alpha) (depth - 1) r1.2
          let eval := -r.1
          if eval > alpha ∧ eval < beta ∧ r.2.stop = false then
            let rr := env.recurse child (-beta) (-alpha) (depth - 1) r.2
            (-rr.1, rr.2)
          else (eval, r.2)
        else r1
      let eval := r2.1
      if r2.2.stop then .stopped r2.2
      else if eval > alpha then
        if eval ≥ beta then
          let _sorted := if !m.isCapture then env.updateSorter pos m depth else pos
          .done beta .Lower best mc r2.2
        else nloop env pos depth inCheck r2.2 eval beta mc best .Exact rest
      else nloop env pos depth inCheck r2.2 alpha beta mc best bound rest

/-- `Search::negamax` (src/search.rs lines 147-289), one frame: stop/clock
check, check extension, quiescence at depth 0, mate-distance pruning, draw
detection, TT probe, null-move pruning, the move loop, the mate/stalemate
result for positions without legal moves, and the final TT store (returned
as a log of inserted entries). -/
def negamax {σ : Type} (env : SearchEnv σ) (pos : σ) (st : SState)
    (alpha beta : Int) (depth : Nat) : Int × SState × List TTField :=
  if st.stop || !env.midCheck st.nodes then (0, { st with stop := true }, [])
  else
    let pvNode : Bool := decide (alpha ≠ beta - 1)
    let inCheck := env.kingInCheck pos
    let depth := if inCheck then depth + 1 else depth
    if depth = 0 then
      let r := quiescence env pos st alpha beta
      (r.1, r.2, [])
    else
      let st := { st with nodes := st.nodes + 1 }
      let ply := env.ply pos
      let alpha := max (-env.mate + ply) alpha
      let beta := min (env.mate - ply - 1) beta
      if alpha ≥ beta then (alpha, st, [])
      else if env.isDraw pos then (0, st, [])
      else
        match ttPhase env.tt env.getValue (env.hash pos) ply depth alpha beta with
        | Sum.inr ttEval => (ttEval, st, [])
        | Sum.inl (alpha, beta, hint) =>
          match nmpPhase env pos st beta depth pvNode inCheck with
          | (some b, st2) => (b, st2, [])
          | (none, st2) =>
            match nloop env pos depth inCheck st2 alpha beta 0 NULL_MOVE .Upper
                (env.generateMoves pos hint) with
            | .stopped st3 => (0, st3, [])
            | .done a bound best mc st3 =>
              if mc = 0 then
                (if inCheck then -env.mate + ply else 0, st3, [])
              else if st3.stop = false then
                (a, st3, [env.newField pos bound best a depth])
              else (a, st3, [])

/-- A trivial concrete search environment over the unit position type,
used to exercise the search-frame theorems on concrete inputs. -/
def qEnvW : SearchEnv Unit where
  tt := ⟨[], 0⟩
  mate := 32000
  isMateScore := fun _ => false
  midCheck := fun _ => true
  kingInCheck := fun _ => false
  ply := fun _ => 0
  isDraw := fun _ => false
  hash := fun _ => 5
  onlyKingPawnsLeft := fun _ => false
  evaluate := fun _ => -2000
  makeMove := fun p _ => p
  makeNull := fun p => p
  updateSorter := fun p _ _ => p
  generateMoves := fun _ _ => []
  generateCaptures := fun _ => []
  getValue := fun e _ => e.value
  newField := fun _ f m v d => ⟨5, m, d, 0, v, f⟩
  recurse := fun _ _ _ _ s => (0, s)
  qrecurse := fun _ _ _ s => (0, s)

/-! ## Bitboards (src/bitboard.rs)

A bitboard is a `u64`, modelled as a `Nat` below `2^64`; bit `i` is
square `i`. -/
/-- All 64 bits set (`!EMPTY_BB`). -/
def M64 : Nat := 2 ^ 64 - 1

/-- Bitwise not on a `u64` bitboard. -/
def bbNot (bb : Nat) : Nat := M64 ^^^ bb

/-- `BitBoard::get_bit`: `self.0 & (1 << square) != 0`. -/
def bbGet (bb sq : Nat) : Bool := bb &&& (1 <<< sq) != 0

/-- `BitBoard::set_bit`: `self.0 |= 1 << square`. -/
def bbSet (bb sq : Nat) : Nat := bb ||| (1 <<< sq)

/-- `BitBoard::pop_bit`: clear the bit of the given square (the source
XORs the bit out when it is set, which equals and-not). -/
def bbPop (bb sq : Nat) : Nat := bb &&& bbNot (1 <<< sq)

/-- `BitBoard::count_bits`: popcount. -/
def bbCount (bb : Nat) : Nat := ((List.range 64).filter (fun i => bb.testBit i)).length

/-- `BitBoard::ls1b_index`: `Square::from(trailing_zeros as usize)`;
`trailing_zeros` of 0 is 64, and `Square::from(64) = A8 = 0`. -/
def bbLsb (bb : Nat) : Nat :=
  squareFromUsize (((List.range 64).find? (fun i => bb.testBit i)).getD 64)

/-- The draining LSB iteration of `impl Iterator for BitBoard`: it yields
the set squares in ascending index order. -/
def bbSquares (bb : Nat) : List Nat := (List.range 64).filter (fun i => bb.testBit i)

/-! ## Attack oracle (tables.rs is not among the available sources)

Modelled from the spec: pure functions from (piece kind, square, blockers)
to attack bitboards; sliders are plain ray scans ("the only contract is
correctness given arbitrary blocker sets"); `between(a,b)` holds the
squares strictly between two aligned squares and is empty otherwise.
Coordinates: square `s` has row `s / 8` (0 = rank 8) and file `s % 8`. -/
/-- Bitboard with the single square at integer coordinates (row, file), or
empty if off the board. -/
def coordBB (r f : Int) : Nat :=
  if 0 ≤ r ∧ r < 8 ∧ 0 ≤ f ∧ f < 8 then 1 <<< (r * 8 + f).toNat else 0

/-- Modelled from the spec: `pawn_attacks(square, color)`; a white pawn
attacks one row toward rank 8, a black pawn one row toward rank 1, on the
two adjacent files. -/
def pawn_attacks (sq : Nat) (c : Color) : Nat :=
  let r : Int := (sq : Int) / 8
  let f : Int := (sq : Int) % 8
  match c with
  | .White => coordBB (r - 1) (f - 1) ||| coordBB (r - 1) (f + 1)
  | .Black => coordBB (r + 1) (f - 1) ||| coordBB (r + 1) (f + 1)

/-- Modelled from the spec: `knight_attacks(square)`. -/
def knight_attacks (sq : Nat) : Nat :=
  let r : Int := (sq : Int) / 8
  let f : Int := (sq : Int) % 8
  coordBB (r - 2) (f - 1) ||| coordBB (r - 2) (f + 1) |||
  coordBB (r - 1) (f - 2) ||| coordBB (r - 1) (f + 2) |||
  coordBB (r + 1) (f - 2) ||| coordBB (r + 1) (f + 2) |||
  coordBB (r + 2) (f - 1) ||| coordBB (r + 2) (f + 1)

/-- Modelled from the spec: `king_attacks(square)`. -/
def king_attacks (sq : Nat) : Nat :=
  let r : Int := (sq : Int) / 8
  let f : Int := (sq : Int) % 8
  coordBB (r - 1) (f - 1) ||| coordBB (r - 1) f ||| coordBB (r - 1) (f + 1) |||
  coordBB r (f - 1) ||| coordBB r (f + 1) |||
  coordBB (r + 1) (f - 1) ||| coordBB (r + 1) f ||| coordBB (r + 1) (f + 1)

/-- One ray scan from (r, f) in direction (dr, df): step squares are
accumulated up to and including the first blocker. -/
def rayScan (blockers : Nat) (dr df : Int) : Nat → Int → Int → Nat
  | 0, _, _ => 0
  | fuel + 1, r, f =>
    let r2 := r + dr
    let f2 := f + df
    if 0 ≤ r2 ∧ r2 < 8 ∧ 0 ≤ f2 ∧ f2 < 8 then
      let b := 1 <<< (r2 * 8 + f2).toNat
      if blockers &&& b != 0 then b
      else b ||| rayScan blockers dr df fuel r2 f2
    else 0

/-- Modelled from the spec: `bishop_attacks(square, blockers)` as a plain
diagonal ray scan. -/
def bishop_attacks (sq blockers : Nat) : Nat :=
  let r : Int := (sq : Int) / 8
  let f : Int := (sq : Int) % 8
  rayScan blockers (-1) (-1) 8 r f ||| rayScan blockers (-1) 1 8 r f |||
  rayScan blockers 1 (-1) 8 r f ||| rayScan blockers 1 1 8 r f

/-- Modelled from the spec: `rook_attacks(square, blockers)` as a plain
rank/file ray scan. -/
def rook_attacks (sq blockers : Nat) : Nat :=
  let r : Int := (sq : Int) / 8
  let f : Int := (sq : Int) % 8
  rayScan blockers (-1) 0 8 r f ||| rayScan blockers 1 0 8 r f |||
  rayScan blockers 0 (-1) 8 r f ||| rayScan blockers 0 1 8 r f

/-- `queen_attacks = bishop_attacks | rook_attacks` (as in the spec). -/
def queen_attacks (sq blockers : Nat) : Nat :=
  bishop_attacks sq blockers ||| rook_attacks sq blockers

/-- Walk from (r, f) toward (rb, fb) in direction (dr, df), collecting the
squares strictly before the destination. -/
def betweenWalk (rb fb dr df : Int) : Nat → Int → Int → Nat
  | 0, _, _ => 0
  | fuel + 1, r, f =>
    let r2 := r + dr
    let f2 := f + df
    if r2 = rb ∧ f2 = fb then 0
    else if 0 ≤ r2 ∧ r2 < 8 ∧ 0 ≤ f2 ∧ f2 < 8 then
      (1 <<< (r2 * 8 + f2).toNat) ||| betweenWalk rb fb dr df fuel r2 f2
    else 0

/-- Integer sign. -/
def isign (x : Int) : Int := if x < 0 then -1 else if 0 < x then 1 else 0

/-- Modelled from the spec: the `BETWEEN` table; squares strictly between
two distinct squares sharing a rank, file or diagonal, empty otherwise. -/
def BETWEEN (a b : Nat) : Nat :=
  let ra : Int := (a : Int) / 8
  let fa : Int := (a : Int) % 8
  let rb : Int := (b : Int) / 8
  let fb : Int := (b : Int) % 8
  if a ≠ b ∧ (ra = rb ∨ fa = fb ∨ (ra - rb).natAbs = (fa - fb).natAbs) then
    betweenWalk rb fb (isign (rb - ra)) (isign (fb - fa)) 8 ra fa
  else 0

/-- Modelled from the spec: `RANK_MASKS[sq]`, the full rank containing the
square. -/
def RANK_MASKS (sq : Nat) : Nat := 255 <<< ((sq / 8) * 8)

/-! ## Pawn push tables (src/square.rs) -/
/-- `PUSH[side][square]`: the single-push target; rows 0 and 7 hold the A8
filler of the source table. -/
def PUSH (c : Color) (sq : Nat) : Nat :=
  match c with
  | .White => if 8 ≤ sq ∧ sq < 56 then sq - 8 else 0
  | .Black => if 8 ≤ sq ∧ sq < 56 then sq + 8 else 0

/-- `DOUBLE_PUSH[side][file]`: target squares of pawn double pushes. -/
def DOUBLE_PUSH (c : Color) (file : Nat) : Nat :=
  match c with
  | .White => 32 + file
  | .Black => 24 + file

/-- Modelled from the spec: `START_RANKS[side]`, the rank coordinate of
each side's pawn starting rank (white pawns on rank 2 = row 6). -/
def START_RANK (c : Color) : Nat :=
  match c with
  | .White => 6
  | .Black => 1

/-! ## Castling rights and castling tables
(castle.rs is not among the available sources) -/
/-- Modelled from the spec: the 4-bit castling rights mask
\x7bWK=1, WQ=2, BK=4, BQ=8\x7d. -/
def NO_RIGHTS : Nat := 0

/-- Modelled from the spec: per-side kingside right query. -/
def hasKingside (rights : Nat) (c : Color) : Bool :=
  match c with
  | .White => rights &&& 1 != 0
  | .Black => rights &&& 4 != 0

/-- Modelled from the spec: per-side queenside right query. -/
def hasQueenside (rights : Nat) (c : Color) : Bool :=
  match c with
  | .White => rights &&& 2 != 0
  | .Black => rights &&& 8 != 0

/-- Modelled from the spec: rights kept when a square is touched; touching
a king home square clears both rights of that side, touching a rook home
square clears the corresponding right. -/
def castleMask (sq : Nat) : Nat :=
  if sq = 60 then 12 else if sq = 63 then 14 else if sq = 56 then 13
  else if sq = 4 then 3 else if sq = 7 then 11 else if sq = 0 then 7
  else 15

/-- Modelled from the spec: `CastlingRights::update(src, tgt)` clears the
rights whose king or rook squares are touched by the move. -/
def rightsUpdate (rights src tgt : Nat) : Nat :=
  rights &&& castleMask src &&& castleMask tgt

/-- Modelled from the spec: `CASTLE_SQUARES[side]`, the king source square
(E1/E8). -/
def CASTLE_SQUARES (c : Color) : Nat :=
  match c with
  | .White => 60
  | .Black => 4

/-- Modelled from the spec: `KINGSIDE_TARGETS[side]` (G1/G8). -/
def KINGSIDE_TARGETS (c : Color) : Nat :=
  match c with
  | .White => 62
  | .Black => 6

/-- Modelled from the spec: `QUEENSIDE_TARGETS[side]` (C1/C8). -/
def QUEENSIDE_TARGETS (c : Color) : Nat :=
  match c with
  | .White => 58
  | .Black => 2

/-- Modelled from the spec: `KINGSIDE_OCCUPANCIES[side]`, the squares that
must be empty and unthreatened for kingside castling (F1,G1 / F8,G8). -/
def KINGSIDE_OCCUPANCIES (c : Color) : Nat :=
  match c with
  | .White => (1 <<< 61) ||| (1 <<< 62)
  | .Black => (1 <<< 5) ||| (1 <<< 6)

/-- Modelled from the spec: `QUEENSIDE_OCCUPANCIES[side]`, the squares
that must be empty for queenside castling (B,C,D files). -/
def QUEENSIDE_OCCUPANCIES (c : Color) : Nat :=
  match c with
  | .White => (1 <<< 57) ||| (1 <<< 58) ||| (1 <<< 59)
  | .Black => (1 <<< 1) ||| (1 <<< 2) ||| (1 <<< 3)

/-- Modelled from the spec: `QUEENSIDE_THREATS[side]`, the squares that
must not be threatened for queenside castling (C,D files; the b-file
square is only required empty, not safe). -/
def QUEENSIDE_THREATS (c : Color) : Nat :=
  match c with
  | .White => (1 <<< 58) ||| (1 <<< 59)
  | .Black => (1 <<< 2) ||| (1 <<< 3)

/-- Modelled from the spec: `ROOK_CASTLING_MOVE[tgt]`, the rook source and
target squares of each castle, indexed by the king target square. -/
def ROOK_CASTLING_MOVE (tgt : Nat) : Nat × Nat :=
  if tgt = 62 then (63, 61) else if tgt = 58 then (56, 59)
  else if tgt = 6 then (7, 5) else if tgt = 2 then (0, 3)
  else (0, 0)

/-! ## Zobrist hashing (zobrist.rs is not among the available sources)

Modelled from the spec: the hash is a 64-bit key toggled incrementally by
XOR; the concrete random constants are out of scope, so the key tables are
a parameter record.  Piece keys are indexed by piece and square, the
castling key by the 4-bit rights mask, the en-passant key by square. -/
structure ZKeys where
  pieceKey : Piece → Nat → Nat
  epKey : Nat → Nat
  castleKey : Nat → Nat
  sideKey : Nat

/-! ## Board state (src/board.rs) -/
/-- The board (`Board` in src/board.rs).  The fixed-size arrays
`pieces: [BitBoard; 12]` and `side_occupancy: [BitBoard; 2]` are modelled
as total functions from their index types. -/
structure Board where
  pieces : Piece → Nat
  side_occupancy : Color → Nat
  occupancy : Nat
  side : Color
  castling_rights : Nat
  en_passant : Option Nat
  halfmoves : Nat
  plies_from_null : Nat
  hash : Nat

/-- `Board::new()`: the empty board. -/
def Board.new : Board :=
  ⟨fun _ => 0, fun _ => 0, 0, .White, NO_RIGHTS, none, 0, 0, 0⟩

/-- Piece-bitboard lookups of src/board.rs (`own_pawns`, `opp_pawns`,
...): the own side is `self.side`, the opponent the flipped color. -/
def Board.own_pawns (b : Board) : Nat := b.pieces b.side.pawn

def Board.opp_pawns (b : Board) : Nat := b.pieces b.side.flip.pawn

def Board.own_knights (b : Board) : Nat := b.pieces b.side.knight

def Board.opp_knights (b : Board) : Nat := b.pieces b.side.flip.knight

def Board.own_bishops (b : Board) : Nat := b.pieces b.side.bishop

def Board.opp_bishops (b : Board) : Nat := b.pieces b.side.flip.bishop

def Board.own_rooks (b : Board) : Nat := b.pieces b.side.rook

def Board.opp_rooks (b : Board) : Nat := b.pieces b.side.flip.rook

def Board.own_queens (b : Board) : Nat := b.pieces b.side.queen

def Board.opp_queens (b : Board) : Nat := b.pieces b.side.flip.queen

def Board.own_king (b : Board) : Nat := b.pieces b.side.king

def Board.opp_king (b : Board) : Nat := b.pieces b.side.flip.king

def Board.own_occupancy (b : Board) : Nat := b.side_occupancy b.side

def Board.opp_occupancy (b : Board) : Nat := b.side_occupancy b.side.flip

def Board.opp_queen_bishop (b : Board) : Nat := b.opp_queens ||| b.opp_bishops

def Board.opp_queen_rook (b : Board) : Nat := b.opp_queens ||| b.opp_rooks

/-- `Board::remove_piece`: clear the square on the piece bitboard, the
occupancy and the side occupancy, and toggle the piece key out of the
hash. -/
def Board.remove_piece (k : ZKeys) (b : Board) (p : Piece) (sq : Nat) : Board :=
  { b with
    pieces := fun q => if q = p then bbPop (b.pieces p) sq else b.pieces q,
    occupancy := bbPop b.occupancy sq,
    side_occupancy := fun c =>
      if c = p.color then bbPop (b.side_occupancy c) sq else b.side_occupancy c,
    hash := b.hash ^^^ k.pieceKey p sq }

/-- `Board::set_piece`: set the square on the piece bitboard, the
occupancy and the side occupancy, and toggle the piece key into the
hash. -/
def Board.set_piece (k : ZKeys) (b : Board) (p : Piece) (sq : Nat) : Board :=
  { b with
    pieces := fun q => if q = p then bbSet (b.pieces p) sq else b.pieces q,
    occupancy := bbSet b.occupancy sq,
    side_occupancy := fun c =>
      if c = p.color then bbSet (b.side_occupancy c) sq else b.side_occupancy c,
    hash := b.hash ^^^ k.pieceKey p sq }

/-- Step 1 of `Board::make_move`: increment the two ply clocks. -/
def Board.mm_clocks (b : Board) : Board :=
  { b with halfmoves := b.halfmoves + 1,
           plies_from_null := b.plies_from_null + 1 }

/-- Step 2 of `Board::make_move`: remove the moving piece from the source
square and reset the halfmove clock on pawn moves. -/
def Board.mm_remove_src (k : ZKeys) (m : Move) (b : Board) : Board :=
  let b1 := b.remove_piece k m.piece m.src
  if m.piece = .WP ∨ m.piece = .BP then { b1 with halfmoves := 0 } else b1

/-- Steps 3-5 of `Board::make_move`: the en-passant / capture / castle
branch (`side` is the mover's side).  A capture also resets the halfmove
clock; a castle moves the rook between its fixed squares. -/
def Board.mm_special (k : ZKeys) (m : Move) (side : Color) (b : Board) : Board :=
  if m.isEnpassant then
    b.remove_piece k m.capture (PUSH side.flip m.tgt)
  else if m.isCapture then
    let r := b.remove_piece k m.capture m.tgt
    { r with halfmoves := 0 }
  else if m.isCastle then
    let rook := side.rook
    let rookMove := ROOK_CASTLING_MOVE m.tgt
    (b.remove_piece k rook rookMove.1).set_piece k rook rookMove.2
  else b

/-- Step 6 of `Board::make_move`: place the promotion piece or the moving
piece on the target square. -/
def Board.mm_place (k : ZKeys) (m : Move) (b : Board) : Board :=
  if m.isPromotion then b.set_piece k m.promotion m.tgt
  else b.set_piece k m.piece m.tgt

/-- Step 7a of `Board::make_move`: clear any previous en-passant square
from board and hash. -/
def Board.mm_clear_ep (k : ZKeys) (b : Board) : Board :=
  match b.en_passant with
  | some sq => { b with en_passant := none, hash := b.hash ^^^ k.epKey sq }
  | none => b

/-- Step 7b of `Board::make_move`: on a double push, set the new
en-passant target and toggle it into the hash. -/
def Board.mm_set_ep (k : ZKeys) (m : Move) (side : Color) (b : Board) : Board :=
  if m.isDoublePush then
    let epTgt := PUSH side m.src
    { b with en_passant := some epTgt, hash := b.hash ^^^ k.epKey epTgt }
  else b

/-- Step 8 of `Board::make_move`: update the castling rights and XOR the
old and new rights keys into the hash. -/
def Board.mm_rights (k : ZKeys) (src tgt oldRights : Nat) (b : Board) : Board :=
  let newRights := rightsUpdate oldRights src tgt
  { b with castling_rights := newRights,
           hash := b.hash ^^^ k.castleKey oldRights ^^^ k.castleKey newRights }

/-- `Board::make_move` (src/board.rs lines 237-301): copy-make of a legal
move, as the composition of its steps in source order; the branch stages
read the mover's side, previous en-passant square and previous castling
rights from the original board, exactly as the source does on the copied
state. -/
def Board.make_move (k : ZKeys) (b : Board) (m : Move) : Board :=
  let new2 := Board.mm_remove_src k m b.mm_clocks
  let new3 := new2.mm_special k m b.side
  let new4 := new3.mm_place k m
  let new5 := new4.mm_clear_ep k
  let new6 := new5.mm_set_ep k m b.side
  let new7 := new6.mm_rights k m.src m.tgt b.castling_rights
  { new7 with side := b.side.flip, hash := new7.hash ^^^ k.sideKey }

/-! ## Move list (moves.rs is not among the available sources)

Modelled from the spec: a push-only buffer of moves; `add_quiet` and
`add_capture` append one move (the final argument of `add_quiet` is the
castle flag), the pawn adders expand pushes and captures to the last rank
into the four promotions (queen, knight, rook, bishop order), and
`add_enpassant` appends the en-passant capture of the enemy pawn. -/
/-- `MoveList::add_quiet`. -/
def addQuiet (ml : List Move) (src tgt : Nat) (p : Piece) (castle : Nat) : List Move :=
  ml ++ [⟨src, tgt, p, .WP, .WP, false, false, false, castle != 0, false⟩]

/-- `MoveList::add_capture`. -/
def addCapture (ml : List Move) (src tgt : Nat) (p cap : Piece) : List Move :=
  ml ++ [⟨src, tgt, p, cap, .WP, true, false, false, false, false⟩]

/-- The promotion expansion order of `PROMOTIONS` in src/piece.rs:
queen, knight, rook, bishop. -/
def promotionsOf (c : Color) : List Piece :=
  [c.queen, c.knight, c.rook, c.bishop]

/-- Row of the promotion rank of each color (white promotes on rank 8 =
row 0). -/
def promoRank (c : Color) : Nat :=
  match c with
  | .White => 0
  | .Black => 7

/-- `MoveList::add_pawn_quiet` (last argument: double-push flag). -/
def addPawnQuiet (ml : List Move) (src tgt : Nat) (c : Color) (dpush : Nat) : List Move :=
  if tgt / 8 = promoRank c then
    ml ++ (promotionsOf c).map
      (fun pr => ⟨src, tgt, c.pawn, .WP, pr, false, false, false, false, true⟩)
  else
    ml ++ [⟨src, tgt, c.pawn, .WP, .WP, false, dpush != 0, false, false, false⟩]

/-- `MoveList::add_pawn_capture`. -/
def addPawnCapture (ml : List Move) (src tgt : Nat) (c : Color) (cap : Piece) : List Move :=
  if tgt / 8 = promoRank c then
    ml ++ (promotionsOf c).map
      (fun pr => ⟨src, tgt, c.pawn, cap, pr, true, false, false, false, true⟩)
  else
    ml ++ [⟨src, tgt, c.pawn, cap, .WP, true, false, false, false, false⟩]

/-- `MoveList::add_enpassant`: capture of the enemy pawn with the
en-passant flag. -/
def addEnpassant (ml : List Move) (src tgt : Nat) (c : Color) : List Move :=
  ml ++ [⟨src, tgt, c.pawn, c.flip.pawn, .WP, true, false, true, false, false⟩]

/-! ## Move generation (src/board.rs lines 304-795) -/
/-- `Board::map_king_attackers`: enemy pieces directly attacking the own
king, found by firing each attack pattern from the king square. -/
def Board.map_king_attackers (b : Board) : Nat :=
  let square := bbLsb b.own_king
  (b.opp_pawns &&& pawn_attacks square b.side) |||
  (b.opp_knights &&& knight_attacks square) |||
  (b.opp_queen_bishop &&& bishop_attacks square b.occupancy) |||
  (b.opp_queen_rook &&& rook_attacks square b.occupancy) |||
  (b.opp_king &&& king_attacks square)

/-- `Board::map_king_threats`: all squares attacked by the opponent with
the own king removed from the occupancy, so sliders project through the
king. -/
def Board.map_king_threats (b : Board) : Nat :=
  let kingSquare := bbLsb b.own_king
  let occupancies := bbPop b.occupancy kingSquare
  ((bbSquares b.opp_pawns).map (fun sq => pawn_attacks sq b.side.flip)).foldl (· ||| ·) 0 |||
  ((bbSquares b.opp_knights).map (fun sq => knight_attacks sq)).foldl (· ||| ·) 0 |||
  ((bbSquares b.opp_queen_bishop).map
    (fun sq => bishop_attacks sq occupancies)).foldl (· ||| ·) 0 |||
  ((bbSquares b.opp_queen_rook).map
    (fun sq => rook_attacks sq occupancies)).foldl (· ||| ·) 0 |||
  ((bbSquares b.opp_king).map (fun sq => king_attacks sq)).foldl (· ||| ·) 0

/-- `Board::map_pins`: (pinned pieces, diagonal pin rays, horizontal and
vertical pin rays); a pin ray runs from the pinning slider (included) to
the king. -/
def Board.map_pins (b : Board) : Nat × Nat × Nat :=
  let kingSquare := bbLsb b.own_king
  let possibleDiagPins := bishop_attacks kingSquare b.occupancy &&& b.own_occupancy
  let possibleHvPins := rook_attacks kingSquare b.occupancy &&& b.own_occupancy
  let removeDiagBlockers := b.occupancy &&& bbNot possibleDiagPins
  let removeHvBlockers := b.occupancy &&& bbNot possibleHvPins
  let diagAttackers := bishop_attacks kingSquare removeDiagBlockers &&& b.opp_queen_bishop
  let hvAttackers := rook_attacks kingSquare removeHvBlockers &&& b.opp_queen_rook
  let diagPins := ((bbSquares diagAttackers).map
    (fun sq => BETWEEN sq kingSquare ||| (1 <<< sq))).foldl (· ||| ·) 0
  let hvPins := ((bbSquares hvAttackers).map
    (fun sq => BETWEEN sq kingSquare ||| (1 <<< sq))).foldl (· ||| ·) 0
  let pinned := (diagPins ||| hvPins) &&& b.own_occupancy
  (pinned, diagPins, hvPins)

/-- `Board::get_captured_piece`: the opponent piece found on the target
square.  The source unwraps (panics) when no piece is there; that cannot
happen on boards whose occupancy is the union of the piece bitboards, and
the model returns the `WP` placeholder in that unreachable case. -/
def Board.get_captured_piece (b : Board) (tgt : Nat) : Piece :=
  (((piecesOf b.side.flip).find? (fun p => bbGet (b.pieces p) tgt)).getD .WP)

/-- `Board::add_moves`: split an attack set into captures and quiets. -/
def Board.add_moves (b : Board) (p : Piece) (source attacks : Nat)
    (ml : List Move) : List Move :=
  (bbSquares attacks).foldl
    (fun ml target =>
      if bbGet b.opp_occupancy target then
        addCapture ml source target p (b.get_captured_piece target)
      else
        addQuiet ml source target p 0)
    ml

/-- `Board::generate_king_moves`: king steps to squares that are neither
own-occupied nor threatened. -/
def Board.generate_king_moves (b : Board) (threats : Nat) (ml : List Move) : List Move :=
  let kingSquare := bbLsb b.own_king
  let attacks := king_attacks kingSquare &&& bbNot b.own_occupancy &&& bbNot threats
  b.add_moves b.side.king kingSquare attacks ml

/-- `Board::generate_castling_moves`: kingside when the F/G squares are
neither occupied nor threatened; queenside when the B/C/D squares are
empty and the C/D squares are unthreatened. -/
def Board.generate_castling_moves (b : Board) (threats : Nat) (ml : List Move) : List Move :=
  let side := b.side
  let source := CASTLE_SQUARES side
  let ml :=
    if hasKingside b.castling_rights side &&
        ((threats ||| b.occupancy) &&& KINGSIDE_OCCUPANCIES side == 0) then
      addQuiet ml source (KINGSIDE_TARGETS side) side.king 1
    else ml
  if hasQueenside b.castling_rights side &&
      (b.occupancy &&& QUEENSIDE_OCCUPANCIES side == 0) &&
      (threats &&& QUEENSIDE_THREATS side == 0) then
    addQuiet ml source (QUEENSIDE_TARGETS side) side.king 1
  else ml

/-- `Board::generate_pawn_quiets`: single and double pushes of pawns that
are not diagonally pinned, restricted by the blocker mask and the
horizontal/vertical pin rays. -/
def Board.generate_pawn_quiets (b : Board) (blockerMask diagPins hvPins : Nat)
    (ml : List Move) : List Move :=
  let side := b.side
  let pawnBB := b.own_pawns &&& bbNot diagPins
  (bbSquares pawnBB).foldl
    (fun ml source =>
      let target := PUSH side source
      if bbGet hvPins source && !bbGet hvPins target then ml
      else if !bbGet b.occupancy target then
        let ml :=
          if bbGet blockerMask target then addPawnQuiet ml source target side 0
          else ml
        if squareRank source = START_RANK side then
          let target2 := DOUBLE_PUSH side (squareFile source)
          if !bbGet b.occupancy target2 && bbGet blockerMask target2 then
            addPawnQuiet ml source target2 side 1
          else ml
        else ml
      else ml)
    ml

/-- `Board::generate_pawn_captures`: normal and en-passant captures of
pawns that are not horizontally/vertically pinned, restricted to the pin
ray when diagonally pinned and to the check mask; the en-passant branch
re-checks the rank for a discovered rook/queen check after removing both
pawns. -/
def Board.generate_pawn_captures (b : Board)
    (blockerMask captureMask diagPins hvPins : Nat) (ml : List Move) : List Move :=
  let pawnBB := b.own_pawns &&& bbNot hvPins
  let checkMask := captureMask ||| blockerMask
  (bbSquares pawnBB).foldl
    (fun ml source =>
      let attacks0 := pawn_attacks source b.side
      let attacks := if bbGet diagPins source then attacks0 &&& diagPins else attacks0
      let captures := attacks &&& checkMask &&& b.opp_occupancy
      let ml := (bbSquares captures).foldl
        (fun ml target =>
          addPawnCapture ml source target b.side (b.get_captured_piece target))
        ml
      match b.en_passant with
      | some epSquare =>
        let epTarget := PUSH b.side.flip epSquare
        if attacks &&& (1 <<< epSquare) != 0 &&
            (bbGet captureMask epTarget || bbGet blockerMask epSquare) then
          let epRank := RANK_MASKS epTarget
          if epRank &&& b.own_king != 0 && epRank &&& b.opp_queen_rook != 0 then
            let occupancy := b.occupancy &&& bbNot (1 <<< source) &&&
              bbNot (1 <<< epTarget)
            let kingSquare := bbLsb b.own_king
            let kingRay := rook_attacks kingSquare occupancy &&& epRank
            if kingRay &&& b.opp_queen_rook != 0 then ml
            else addEnpassant ml source epSquare b.side
          else addEnpassant ml source epSquare b.side
        else ml
      | none => ml)
    ml

/-- `Board::generate_knight_moves`: pinned knights never move; attacks are
cut to the check mask and away from own pieces. -/
def Board.generate_knight_moves (b : Board) (checkMask pinned : Nat)
    (ml : List Move) : List Move :=
  let knightBB := b.own_knights &&& bbNot pinned
  (bbSquares knightBB).foldl
    (fun ml source =>
      let attacks := knight_attacks source &&& checkMask &&& bbNot b.own_occupancy
      b.add_moves b.side.knight source attacks ml)
    ml

/-- `Board::generate_bishop_moves`: horizontally/vertically pinned bishops
never move; diagonally pinned ones move along the pin ray. -/
def Board.generate_bishop_moves (b : Board) (checkMask diagPins hvPins : Nat)
    (ml : List Move) : List Move :=
  let bishopBB := b.own_bishops &&& bbNot hvPins
  (bbSquares bishopBB).foldl
    (fun ml source =>
      let attacks0 := bishop_attacks source b.occupancy &&& checkMask &&&
        bbNot b.own_occupancy
      let attacks := if bbGet diagPins source then attacks0 &&& diagPins else attacks0
      b.add_moves b.side.bishop source attacks ml)
    ml

/-- `Board::generate_rook_moves`: diagonally pinned rooks never move;
horizontally/vertically pinned ones move along the pin ray. -/
def Board.generate_rook_moves (b : Board) (checkMask diagPins hvPins : Nat)
    (ml : List Move) : List Move :=
  let rookBB := b.own_rooks &&& bbNot diagPins
  (bbSquares rookBB).foldl
    (fun ml source =>
      let attacks0 := rook_attacks source b.occupancy &&& checkMask &&&
        bbNot b.own_occupancy
      let attacks := if bbGet hvPins source then attacks0 &&& hvPins else attacks0
      b.add_moves b.side.rook source attacks ml)
    ml

/-- `Board::generate_queen_moves`: a pinned queen moves as a bishop or
rook along its pin ray, an unpinned one moves normally. -/
def Board.generate_queen_moves (b : Board) (checkMask diagPins hvPins : Nat)
    (ml : List Move) : List Move :=
  let queenBB := b.own_queens
  (bbSquares queenBB).foldl
    (fun ml source =>
      let attacks0 :=
        if bbGet diagPins source then bishop_attacks source b.occupancy &&& diagPins
        else if bbGet hvPins source then rook_attacks source b.occupancy &&& hvPins
        else queen_attacks source b.occupancy
      let attacks := attacks0 &&& checkMask &&& bbNot b.own_occupancy
      b.add_moves b.side.queen source attacks ml)
    ml

/-- `Board::generate_moves` (src/board.rs lines 753-795): the fully-legal
move generator, combining the attacker, threat and pin masks with
piece-wise generation. -/
def Board.generate_moves (b : Board) : List Move :=
  let ml : List Move := []
  let attackers := b.map_king_attackers
  let threats := b.map_king_threats
  let attackerCount := bbCount attackers
  let blockerMask := if attackerCount = 1
    then BETWEEN (bbLsb b.own_king) (bbLsb attackers) else M64
  let captureMask := if attackerCount = 1 then attackers else M64
  let ml := b.generate_king_moves threats ml
  if attackerCount > 1 then ml
  else
    let ml := if b.castling_rights ≠ NO_RIGHTS ∧ attackerCount = 0
      then b.generate_castling_moves threats ml else ml
    let pins := b.map_pins
    let pinned := pins.1
    let diag := pins.2.1
    let hv := pins.2.2
    let checkMask := blockerMask ||| captureMask
    let ml := b.generate_pawn_captures blockerMask captureMask diag hv ml
    let ml := b.generate_pawn_quiets blockerMask diag hv ml
    let ml := b.generate_knight_moves checkMask pinned ml
    let ml := b.generate_bishop_moves checkMask diag hv ml
    let ml := b.generate_rook_moves checkMask diag hv ml
    let ml := b.generate_queen_moves checkMask diag hv ml
    ml

/-! ## FEN parsing (`impl TryFrom<&str> for Board`, src/board.rs lines
69-144) -/
/-- `Piece::try_from(char)` over the `PIECE_CHAR` table. -/
def pieceOfChar (c : Char) : Option Piece :=
  match c with
  | 'P' => some .WP
  | 'p' => some .BP
  | 'N' => some .WN
  | 'n' => some .BN
  | 'B' => some .WB
  | 'b' => some .BB
  | 'R' => some .WR
  | 'r' => some .BR
  | 'Q' => some .WQ
  | 'q' => some .BQ
  | 'K' => some .WK
  | 'k' => some .BK
  | _ => none

/-- The placement-field loop of the FEN parser: `/` checks the per-rank
token count and moves one rank down (with the `Rank::down` wrap), digits
advance the file (with the `File::right` wrap), letters place a piece.
Returns the board and the token count of the last rank. -/
def fenBoardLoop (k : ZKeys) :
    List Char → Board → Nat → Nat → Nat → Option (Board × Nat)
  | [], b, _, _, tc => some (b, tc)
  | c :: cs, b, file, rank, tc =>
    if c = '/' then
      if tc ≠ 8 then none
      else fenBoardLoop k cs b file ((rank + 1) % 8) 0
    else if '1' ≤ c ∧ c ≤ '8' then
      let d := c.toNat - 48
      fenBoardLoop k cs b ((file + d) % 8) rank (tc + d)
    else
      match pieceOfChar c with
      | none => none
      | some p =>
        fenBoardLoop k cs (b.set_piece k p (squareFromCoords file rank))
          ((file + 1) % 8) rank (tc + 1)

/-- Modelled from the spec: `CastlingRights::try_from(&str)` accepts `-`
or a non-rearranged subset of `KQkq` (the source rejects out-of-order
strings such as `kqKQ`). -/
def parseRightsFrom : List Char → List (Char × Nat) → Option Nat
  | [], _ => some 0
  | c :: cs, avail =>
    match avail.dropWhile (fun p => p.1 ≠ c) with
    | [] => none
    | (_, bit) :: rest => (parseRightsFrom cs rest).map (bit ||| ·)

/-- Castling-rights field parser. -/
def parseCastlingRights (s : List Char) : Option Nat :=
  if s = ['-'] then some 0
  else parseRightsFrom s [('K', 1), ('Q', 2), ('k', 4), ('q', 8)]

/-- `Square::from_str`: a file letter followed by a rank digit, via the
`SQUARE_STR` table ordering. -/
def parseSquare (s : List Char) : Option Nat :=
  match s with
  | [cf, cr] =>
    if 'a' ≤ cf ∧ cf ≤ 'h' ∧ '1' ≤ cr ∧ cr ≤ '8' then
      some ((8 - (cr.toNat - 48)) * 8 + (cf.toNat - 97))
    else none
  | _ => none

/-- The `split_whitespace` iterator over a character list: maximal runs of
non-whitespace characters, empty tokens skipped. -/
def splitWsAux : List Char → List Char → List (List Char)
  | [], acc => if acc = [] then [] else [acc.reverse]
  | c :: cs, acc =>
    if c.isWhitespace then
      if acc = [] then splitWsAux cs []
      else acc.reverse :: splitWsAux cs []
    else splitWsAux cs (c :: acc)

def splitWs (l : List Char) : List (List Char) := splitWsAux l []

/-- `str::parse::<usize>` on a digit string. -/
def digitsToNat : List Char → Nat → Option Nat
  | [], acc => some acc
  | c :: cs, acc =>
    if '0' ≤ c ∧ c ≤ '9' then digitsToNat cs (acc * 10 + (c.toNat - 48))
    else none

def parseNat (l : List Char) : Option Nat :=
  match l with
  | [] => none
  | _ => digitsToNat l 0

/-- `impl TryFrom<&str> for Board`: six whitespace-separated fields; the
placement loop, side + side-key toggle for white, castling rights +
castle-key toggle, en-passant square + key toggle, halfmove counter; the
fullmove field is required but ignored.  The `&str` input is modelled as a
character list. -/
def parseFen (k : ZKeys) (s : List Char) : Option Board :=
  let fen := (splitWs s).take 6
  match fen with
  | [placement, sideStr, castleStr, epStr, hmStr, _full] =>
    match fenBoardLoop k placement Board.new 0 0 0 with
    | none => none
    | some (b0, tc) =>
      if tc ≠ 8 then none
      else
        let b1opt :=
          if sideStr = ['w'] then
            some { b0 with side := Color.White, hash := b0.hash ^^^ k.sideKey }
          else if sideStr = ['b'] then some { b0 with side := Color.Black }
          else none
        match b1opt with
        | none => none
        | some b1 =>
          match parseCastlingRights castleStr with
          | none => none
          | some rights =>
            let b2 := { b1 with castling_rights := rights,
                                hash := b1.hash ^^^ k.castleKey rights }
            let b3opt :=
              if epStr = ['-'] then some { b2 with en_passant := none }
              else
                match parseSquare epStr with
                | none => none
                | some sq =>
                  some { b2 with en_passant := some sq,
                                 hash := b2.hash ^^^ k.epKey sq }
            match b3opt with
            | none => none
            | some b3 =>
              match parseNat hmStr with
              | none => none
              | some hm => some { b3 with halfmoves := hm }
  | _ => none

/-- The all-zero key set (used for concrete evaluations where the hash is
irrelevant). -/
def zeroKeys : ZKeys := ⟨fun _ _ => 0, fun _ => 0, fun _ => 0, 0⟩

/-- The kingside castling move as emitted by
`Board::generate_castling_moves` (a quiet king move with the castle
flag). -/
def kingsideCastleMove (c : Color) : Move :=
  ⟨CASTLE_SQUARES c, KINGSIDE_TARGETS c, c.king, .WP, .WP,
    false, false, false, true, false⟩

/-- The queenside castling move as emitted by
`Board::generate_castling_moves`. -/
def queensideCastleMove (c : Color) : Move :=
  ⟨CASTLE_SQUARES c, QUEENSIDE_TARGETS c, c.king, .WP, .WP,
    false, false, false, true, false⟩

/-- White to move with kingside rights, F1/G1 empty, and a black rook on
f8 threatening F1 (no check on the king itself). -/
def castleThreatBoard : Board :=
  (parseFen zeroKeys ("5r2/8/8/8/8/8/k7/4K2R w K - 0 1".toList)).getD Board.new

/-- White to move with kingside rights and a free, unthreatened kingside. -/
def castleFreeBoard : Board :=
  (parseFen zeroKeys ("4k3/8/8/8/8/8/8/4K2R w K - 0 1".toList)).getD Board.new

/-! ## The Zobrist hash recomputed from scratch

`hashFromScratch` is the specification-side hash of a board: the XOR of
the piece keys of every present piece, the castling-rights key, the side
key when white is to move (the FEN parser toggles the side key exactly for
`w`), and the en-passant key of the stored square if set.  C3 states that
the incrementally maintained `hash` field always equals it. -/
/-- XOR-fold of a key function over a list. -/
def xfold {α : Type} (f : α → Nat) : List α → Nat
  | [] => 0
  | a :: as => f a ^^^ xfold f as

/-- XOR of the piece keys of all set squares of one piece bitboard. -/
def squareXor (k : ZKeys) (p : Piece) (bb : Nat) : Nat :=
  xfold (fun i => if bb.testBit i then k.pieceKey p i else 0) (List.range 64)

/-- XOR of the piece keys of every present piece. -/
def hashPieces (k : ZKeys) (pieces : Piece → Nat) : Nat :=
  xfold (fun p => squareXor k p (pieces p)) allPieces

/-- The en-passant contribution to the hash. -/
def epHashPart (k : ZKeys) : Option Nat → Nat
  | some sq => k.epKey sq
  | none => 0

/-- The Zobrist hash of a board recomputed from scratch. -/
def hashFromScratch (k : ZKeys) (b : Board) : Nat :=
  hashPieces k b.pieces ^^^ k.castleKey b.castling_rights ^^^
    (if b.side = Color.White then k.sideKey else 0) ^^^ epHashPart k b.en_passant

/-- The incremental hash invariant of C3. -/
def HashOk (k : ZKeys) (b : Board) : Prop :=
  b.hash = hashFromScratch k b

/-- A FEN string proper has ranks 8 down to 1: its placement field
contains at most 7 rank separators. -/
def fenRanksOk (s : List Char) : Bool :=
  match (splitWs s).take 6 with
  | placement :: _ => decide (placement.count '/' ≤ 7)
  | [] => true

/-! ## C3: the hash invariant across make_move -/
/-- The hash well-formedness side conditions on one move, implied by
legality: the moving piece stands on the source square, any captured piece
stands where `make_move` removes it, a castling rook stands on its corner
with the rook target free, and the placement target square is free for the
placed piece.  Each condition is phrased on the exact intermediate board
`make_move` acts on. -/
def moveHashWF (k : ZKeys) (b : Board) (m : Move) : Prop :=
  m.src < 64 ∧
  (b.pieces m.piece).testBit m.src = true ∧
  m.tgt < 64 ∧
  (m.isEnpassant = true →
    PUSH b.side.flip m.tgt < 64 ∧
    ((Board.mm_remove_src k m (Board.mm_clocks b)).pieces m.capture).testBit
      (PUSH b.side.flip m.tgt) = true) ∧
  (m.isEnpassant = false → m.isCapture = true →
    ((Board.mm_remove_src k m (Board.mm_clocks b)).pieces m.capture).testBit
      m.tgt = true) ∧
  (m.isEnpassant = false → m.isCapture = false → m.isCastle = true →
    (ROOK_CASTLING_MOVE m.tgt).1 < 64 ∧
    ((Board.mm_remove_src k m (Board.mm_clocks b)).pieces b.side.rook).testBit
      (ROOK_CASTLING_MOVE m.tgt).1 = true ∧
    (ROOK_CASTLING_MOVE m.tgt).2 < 64 ∧
    (((Board.mm_remove_src k m (Board.mm_clocks b)).remove_piece k b.side.rook
        (ROOK_CASTLING_MOVE m.tgt).1).pieces b.side.rook).testBit
      (ROOK_CASTLING_MOVE m.tgt).2 = false) ∧
  ((Board.mm_special k m b.side (Board.mm_remove_src k m (Board.mm_clocks b))).pieces
      (if m.isPromotion then m.promotion else m.piece)).testBit m.tgt = false

instance (k : ZKeys) (b : Board) (m : Move) : Decidable (moveHashWF k b m) := by
  unfold moveHashWF
  infer_instance

/-- Fold a list of moves through `make_move`. -/
def applyMoves (k : ZKeys) : Board → List Move → Board
  | b, [] => b
  | b, m :: ms => applyMoves k (b.make_move k m) ms

/-- Every move of the sequence satisfies the hash well-formedness side
conditions on the board it is played on. -/
def seqHashWF (k : ZKeys) : Board → List Move → Prop
  | _, [] => True
  | b, m :: ms => moveHashWF k b m ∧ seqHashWF k (b.make_move k m) ms

/-- The start position, for exercising the hash invariant. -/
def c3Fen : List Char :=
  "rnbqkbnr/pppppppp/8/8/8/8/PPPPPPPP/RNBQKBNR w KQkq - 0 1".toList

/-- The board parsed from `c3Fen`. -/
def c3Board : Board := (parseFen zeroKeys c3Fen).getD Board.new

/-- The double pawn push e2e4. -/
def c3MoveA : Move := ⟨52, 36, .WP, .WP, .WP, false, true, false, false, false⟩

/-- The knight move b8c6. -/
def c3MoveB : Move := ⟨1, 18, .BN, .WP, .WP, false, false, false, false, false⟩

/-- Masking a `u8` value with 63 is reduction mod 64. -/
theorem and63_eq_mod (x : Nat) : x &&& 63 = x % 64 :=
  Nat.and_pow_two_sub_one_eq_mod x 6

/-- C10: `Square::from(index)` reduces the index modulo 64 and is total on
every `usize` input, and the single-step neighbor functions wrap linearly
over the 0..63 enumeration modulo 64: `right(s) = (s+1) % 64`,
`left(s) = (s+63) % 64`, `down(s) = (s+8) % 64`, `up(s) = (s+56) % 64`;
every result is an in-range square (< 64); in particular
`H1.right() = A8` and `A8.up() = A1`. -/
theorem square_wrap_spec :
    (∀ i : Nat, squareFromUsize i = i % 64) ∧
    (∀ s : Nat, s < 64 → squareRight s = (s + 1) % 64) ∧
    (∀ s : Nat, s < 64 → squareLeft s = (s + 63) % 64) ∧
    (∀ s : Nat, s < 64 → squareDown s = (s + 8) % 64) ∧
    (∀ s : Nat, s < 64 → squareUp s = (s + 56) % 64) ∧
    (∀ i : Nat, squareFromUsize i < 64 ∧ squareRight i < 64 ∧
      squareLeft i < 64 ∧ squareDown i < 64 ∧ squareUp i < 64) ∧
    squareRight sqH1 = sqA8 ∧ squareUp sqA8 = sqA1 := by
  have hlt : ∀ x : Nat, x &&& 63 < 64 := by
    intro x
    have := and63_eq_mod x
    omega
  refine ⟨?_, ?_, ?_, ?_, ?_, ?_, by decide, by decide⟩
  · intro i
    rw [squareFromUsize, and63_eq_mod]
    omega
  · intro s hs
    rw [squareRight, and63_eq_mod]
    omega
  · intro s hs
    rw [squareLeft, and63_eq_mod]
    omega
  · intro s hs
    rw [squareDown, and63_eq_mod]
    omega
  · intro s hs
    rw [squareUp, and63_eq_mod]
    omega
  · intro i
    exact ⟨hlt _, hlt _, hlt _, hlt _, hlt _⟩

/-- Witness for `square_wrap_spec` at a concrete input. -/
theorem square_wrap_spec_witness :
    (3 : Nat) < 64 ∧ squareRight 3 = (3 + 1) % 64 :=
  ⟨by decide, square_wrap_spec.2.1 3 (by decide)⟩

/-- C7: for every hash value, `TT::probe` returns `some field` if and only
if the slot stored at index `hash & bitmask` has key exactly equal to the
probed hash and `field` is that slot; any key mismatch yields `none`, so
every returned entry's key equals the queried hash. -/
theorem tt_probe_exact_match (tt : TT) (hash : Nat) (f : TTField) :
    (TT.probe tt hash = some f ↔
      (tt.table.getD (hash &&& tt.bitmask) TTField.emptyField).key = hash ∧
        f = tt.table.getD (hash &&& tt.bitmask) TTField.emptyField) ∧
    (TT.probe tt hash).all (fun e => e.key = hash) := by
  constructor
  · simp only [TT.probe]
    split_ifs with h
    · constructor
      · intro hsome
        exact ⟨h, (Option.some_inj.mp hsome).symm⟩
      · intro ⟨_, hf⟩
        rw [hf]
    · constructor
      · intro hsome
        cases hsome
      · intro ⟨hk, _⟩
        exact absurd hk h
  · simp only [TT.probe]
    split_ifs with h
    · simpa using h
    · rfl

/-! ## C2: the transposition-table replacement policy -/
/-- C2 (counterexample): the claim predicts that an incoming entry whose
depth is at least the stored depth is always written, but `TT::insert`
additionally requires the keys to differ: re-inserting the same key with a
greater depth leaves the slot unchanged. -/
theorem tt_insert_claim_counterexample :
    let tt0 : TT := ⟨[⟨5, NULL_MOVE, 3, 0, 0, .Exact⟩], 0⟩
    let entry : TTField := ⟨5, NULL_MOVE, 7, 0, 100, .Exact⟩
    let slot := tt0.table.getD (entry.key &&& tt0.bitmask) TTField.emptyField
    (slot.key = NULL_HASH ∨ entry.step > slot.step ∨ entry.depth ≥ slot.depth) ∧
      TT.insert tt0 entry = tt0 ∧
      tt0.table.getD (entry.key &&& tt0.bitmask) TTField.emptyField ≠ entry := by
  decide

/-- C2 (amended): `TT::insert` writes the incoming entry into the slot at
index `key & bitmask` exactly when the incoming key differs from the stored
key and (the incoming step strictly exceeds the stored step, or the
incoming depth is at least the stored depth); otherwise the table is left
unchanged.  In particular a default (empty) slot is overwritten by every
entry with a non-null key. -/
theorem tt_insert_replacement (tt : TT) (entry : TTField)
    (hlen : tt.table.length = tt.bitmask + 1) :
    let idx := entry.key &&& tt.bitmask
    let slot := tt.table.getD idx TTField.emptyField
    (entry.key ≠ slot.key ∧ (entry.step > slot.step ∨ entry.depth ≥ slot.depth) →
      (TT.insert tt entry).table.getD idx TTField.emptyField = entry) ∧
    (¬(entry.key ≠ slot.key ∧ (entry.step > slot.step ∨ entry.depth ≥ slot.depth)) →
      TT.insert tt entry = tt) ∧
    (slot = TTField.emptyField ∧ entry.key ≠ NULL_HASH →
      (TT.insert tt entry).table.getD idx TTField.emptyField = entry) := by
  intro idx slot
  have hidx : idx < tt.table.length := by
    have : idx ≤ tt.bitmask := Nat.and_le_right
    omega
  have hwrite : entry.key ≠ slot.key ∧
      (entry.step > slot.step ∨ entry.depth ≥ slot.depth) →
      (TT.insert tt entry).table.getD idx TTField.emptyField = entry := by
    intro h
    simp only [TT.insert]
    rw [if_pos h]
    simp [List.getD, List.getElem?_set_self, hidx]
  refine ⟨hwrite, ?_, ?_⟩
  · intro h
    simp only [TT.insert]
    rw [if_neg h]
  · intro ⟨hempty, hkey⟩
    refine hwrite ⟨?_, Or.inr ?_⟩
    · rw [hempty]
      exact hkey
    · rw [hempty]
      exact Nat.zero_le _

/-- Witness for `tt_insert_replacement`: a fresh entry with a new key
overwrites an empty two-slot table. -/
theorem tt_insert_replacement_witness :
    let tt1 : TT := ⟨[TTField.emptyField, TTField.emptyField], 1⟩
    let e1 : TTField := ⟨3, NULL_MOVE, 7, 0, 50, .Lower⟩
    (TT.insert tt1 e1).table.getD (e1.key &&& tt1.bitmask) TTField.emptyField = e1 :=
  (tt_insert_replacement ⟨[TTField.emptyField, TTField.emptyField], 1⟩
    ⟨3, NULL_MOVE, 7, 0, 50, .Lower⟩ (by decide)).1 (by decide)

/-- The wrap to `i16` is the identity inside `i16` range. -/
theorem toI16_eq_self {x : Int} (h1 : -32768 ≤ x) (h2 : x ≤ 32767) :
    toI16 x = x := by
  unfold toI16
  omega

/-- Core bound for the gravity formula with a non-negative old score. -/
theorem taper_core_bound (o b : Int) (ho : 0 ≤ o) (ho16 : o ≤ 16384)
    (hb : |b| ≤ 400) :
    |o + 8 * b - Int.tdiv (o * |b|) 2048| ≤ 16384 := by
  set a := o * |b| with ha
  have hann : 0 ≤ a := mul_nonneg ho (abs_nonneg b)
  have htd : Int.tdiv a 2048 = a / 2048 :=
    Int.tdiv_eq_ediv hann (by norm_num)
  set q := a / 2048 with hq
  have hmod : 2048 * q + a % 2048 = a := Int.ediv_add_emod a 2048
  have hr0 : 0 ≤ a % 2048 := Int.emod_nonneg a (by norm_num)
  have hr1 : a % 2048 < 2048 := Int.emod_lt_of_pos a (by norm_num)
  have hb1 : b ≤ |b| := le_abs_self b
  have hb2 : -|b| ≤ b := neg_abs_le b
  have hb0 : 0 ≤ |b| := abs_nonneg b
  rw [htd]
  rw [abs_le]
  constructor
  · -- lower bound: 2048 * (o + 8b - q) ≥ -2048 * 16384
    have key : 0 ≤ o * (2048 - |b|) := mul_nonneg ho (by linarith)
    have h2048 : -(2048 * 16384) ≤ 2048 * (o + 8 * b - q) := by
      nlinarith [key, hmod, hr0, hr1]
    omega
  · -- upper bound: 2048 * (o + 8b - q) ≤ 2048 * 16384 + 2047
    have key : 0 ≤ (16384 - o) * (2048 - |b|) :=
      mul_nonneg (by linarith) (by linarith)
    have h2048 : 2048 * (o + 8 * b - q) ≤ 2048 * 16384 + 2047 := by
      nlinarith [key, hmod, hr0, hr1]
    omega

/-- C9: the history bonus equals `min(400, depth * depth)` for every depth,
and the gravity update `new = old + 8*b - (old*|b|)/2048` (32-bit
truncating arithmetic) maps every old score with `|old| ≤ 16384` and every
bonus with `|b| ≤ 400` to a score with `|new| ≤ 16384`, so the `i16`
history entries never overflow. -/
theorem history_gravity_bounded :
    (∀ depth : Nat, history_bonus depth = ((Nat.min 400 (depth * depth) : Nat) : Int)) ∧
    (∀ old bonus : Int, |old| ≤ 16384 → |bonus| ≤ 400 →
      |taper_bonus bonus old| ≤ 16384) := by
  constructor
  · intro depth
    unfold history_bonus
    apply toI16_eq_self
    · omega
    · have h400 : Nat.min 400 (depth * depth) ≤ 400 := Nat.min_le_left _ _
      omega
  · intro o b hob hb
    have core : |o + 8 * b - Int.tdiv (o * |b|) 2048| ≤ 16384 := by
      rcases le_or_lt 0 o with ho | ho
      · exact taper_core_bound o b ho (by rw [abs_le] at hob; exact hob.2) hb
      · have hneg : |(-o) + 8 * (-b) - Int.tdiv ((-o) * |(-b)|) 2048| ≤ 16384 := by
          apply taper_core_bound (-o) (-b) (by omega)
          · rw [abs_le] at hob
            omega
          · rwa [abs_neg]
        have : (-o) + 8 * (-b) - Int.tdiv ((-o) * |(-b)|) 2048 =
            -(o + 8 * b - Int.tdiv (o * |b|) 2048) := by
          rw [abs_neg, neg_mul, Int.neg_tdiv]
          ring
        rw [this, abs_neg] at hneg
        exact hneg
    have core2 := abs_le.mp core
    unfold taper_bonus
    rw [toI16_eq_self (by omega) (by omega)]
    exact core

/-- Witness for `history_gravity_bounded` at the extreme concrete input. -/
theorem history_gravity_bounded_witness :
    |taper_bonus 400 16384| ≤ 16384 :=
  history_gravity_bounded.2 16384 400 (by decide) (by decide)

/-- C6: in quiescence search, when the stop flag is not set and the clock
check passes: if `ply >= MAX_DEPTH` the static evaluation is returned;
otherwise if the stand-pat evaluation is at least `beta`, beta is
returned; otherwise if the evaluation is below `alpha - 1100`, alpha is
returned (delta/futility pruning) before any capture is searched. -/
theorem quiescence_pruning {σ : Type} (env : SearchEnv σ) (pos : σ)
    (st : SState) (alpha beta : Int)
    (hstop : st.stop = false) (hclock : env.midCheck st.nodes = true) :
    (env.ply pos ≥ MAX_DEPTH →
      quiescence env pos st alpha beta =
        (env.evaluate pos,
          { st with nodes := st.nodes + 1,
                    seldepth := max st.seldepth (env.ply pos) })) ∧
    (env.ply pos < MAX_DEPTH → env.evaluate pos ≥ beta →
      quiescence env pos st alpha beta =
        (beta,
          { st with nodes := st.nodes + 1,
                    seldepth := max st.seldepth (env.ply pos) })) ∧
    (env.ply pos < MAX_DEPTH → env.evaluate pos < beta →
      env.evaluate pos < alpha - 1100 →
      quiescence env pos st alpha beta =
        (alpha,
          { st with nodes := st.nodes + 1,
                    seldepth := max st.seldepth (env.ply pos) })) := by
  have hcond : (st.stop || !env.midCheck st.nodes) = false := by
    rw [hstop, hclock]
    rfl
  refine ⟨?_, ?_, ?_⟩
  · intro h
    simp only [quiescence, hcond, Bool.false_eq_true, if_false]
    rw [if_pos h]
  · intro h hbeta
    simp only [quiescence, hcond, Bool.false_eq_true, if_false]
    rw [if_neg (by omega), if_pos hbeta]
  · intro h hbeta hfut
    simp only [quiescence, hcond, Bool.false_eq_true, if_false]
    rw [if_neg (by omega), if_neg (by omega), if_pos (by unfold FUTILITY_MARGIN; omega)]

/-- Witness for `quiescence_pruning`: a concrete frame where the stand-pat
evaluation falls below the delta-pruning margin. -/
theorem quiescence_pruning_witness :
    quiescence qEnvW () ⟨false, 0, 0⟩ 0 10 = (0, ⟨false, 1, 0⟩) := by
  have h := (quiescence_pruning qEnvW () ⟨false, 0, 0⟩ 0 10 rfl rfl).2.2
    (by decide) (by decide) (by decide)
  simpa using h

/-- C8: in negamax, when move generation yields an empty list and no
earlier return fired (stop/clock pass, non-zero depth after the check
extension, no mate-distance cutoff, no draw, no transposition-table
cutoff, no null-move cutoff), the function returns `-MATE + ply` if the
side to move is in check and `0` otherwise, and performs no
transposition-table insertion on that path. -/
theorem negamax_no_moves_mate_stalemate {σ : Type} (env : SearchEnv σ)
    (pos : σ) (st : SState) (alpha beta : Int) (depth : Nat)
    (alpha2 beta2 : Int) (hint : Option Move)
    (hstop : st.stop = false) (hclock : env.midCheck st.nodes = true)
    (hdepth : ¬(if env.kingInCheck pos then depth + 1 else depth) = 0)
    (hmdp : max (-env.mate + env.ply pos) alpha <
      min (env.mate - env.ply pos - 1) beta)
    (hdraw : env.isDraw pos = false)
    (htt : ttPhase env.tt env.getValue (env.hash pos) (env.ply pos)
      (if env.kingInCheck pos then depth + 1 else depth)
      (max (-env.mate + env.ply pos) alpha)
      (min (env.mate - env.ply pos - 1) beta) = Sum.inl (alpha2, beta2, hint))
    (hnmp : (nmpPhase env pos { st with nodes := st.nodes + 1 } beta2
      (if env.kingInCheck pos then depth + 1 else depth)
      (decide (alpha ≠ beta - 1)) (env.kingInCheck pos)).1 = none)
    (hmoves : env.generateMoves pos hint = []) :
    (negamax env pos st alpha beta depth).1 =
      (if env.kingInCheck pos then -env.mate + env.ply pos else 0) ∧
    (negamax env pos st alpha beta depth).2.2 = [] := by
  have hcond : (st.stop || !env.midCheck st.nodes) = false := by
    rw [hstop, hclock]
    rfl
  have key : negamax env pos st alpha beta depth =
      ((if env.kingInCheck pos then -env.mate + env.ply pos else 0),
        (nmpPhase env pos { st with nodes := st.nodes + 1 } beta2
          (if env.kingInCheck pos then depth + 1 else depth)
          (decide (alpha ≠ beta - 1)) (env.kingInCheck pos)).2, []) := by
    simp only [negamax, hcond, Bool.false_eq_true, if_false]
    rw [if_neg hdepth]
    rw [if_neg (by omega), if_neg (by simp [hdraw])]
    rw [htt]
    dsimp only
    rcases hn : nmpPhase env pos { st with nodes := st.nodes + 1 } beta2
      (if env.kingInCheck pos then depth + 1 else depth)
      (decide (alpha ≠ beta - 1)) (env.kingInCheck pos) with ⟨o, st2⟩
    rw [hn] at hnmp
    obtain rfl : o = none := hnmp
    dsimp only
    rw [hmoves]
    simp only [nloop]
    simp
  rw [key]
  exact ⟨rfl, rfl⟩

/-- Witness for `negamax_no_moves_mate_stalemate`: the trivial environment
generates no moves and is not in check, so the frame reports stalemate. -/
theorem negamax_no_moves_witness :
    (negamax qEnvW () ⟨false, 0, 0⟩ (-10) 10 1).1 = 0 ∧
    (negamax qEnvW () ⟨false, 0, 0⟩ (-10) 10 1).2.2 = [] := by
  have h := negamax_no_moves_mate_stalemate qEnvW () ⟨false, 0, 0⟩ (-10) 10 1
    (-10) 10 none rfl rfl (by decide) (by decide) rfl (by decide) (by decide) rfl
  simpa using h

/-- C4 (counterexample): a legal rook capture after which
`plies_from_null` is 1, not 0: `make_move` increments it and never clears
it. -/
theorem make_move_plies_counterexample :
    let b := (parseFen zeroKeys ("4k3/p7/8/8/8/8/8/R3K3 w - - 0 1".toList)).getD Board.new
    let m : Move := ⟨56, 8, .WR, .BP, .WP, true, false, false, false, false⟩
    m ∈ b.generate_moves ∧ m.isCapture = true ∧
      (b.make_move zeroKeys m).plies_from_null = 1 := by
  decide

/-- C4 (amended): for every board and move, `make_move` increments both
`halfmoves` and `plies_from_null` by one and then resets `halfmoves`
(only) to zero exactly when the moving piece is a pawn or the move is a
non-en-passant capture; `plies_from_null` is never cleared by
`make_move`. -/
theorem make_move_clocks (k : ZKeys) (b : Board) (m : Move) :
    (b.make_move k m).plies_from_null = b.plies_from_null + 1 ∧
    (b.make_move k m).halfmoves =
      (if m.piece = Piece.WP ∨ m.piece = Piece.BP ∨
          (m.isEnpassant = false ∧ m.isCapture = true)
       then 0 else b.halfmoves + 1) ∧
    ((b.make_move k m).halfmoves = 0 ↔
      m.piece = Piece.WP ∨ m.piece = Piece.BP ∨
        (m.isEnpassant = false ∧ m.isCapture = true)) := by
  have hrtP : ∀ x : Board,
      (Board.mm_rights k m.src m.tgt b.castling_rights x).plies_from_null =
        x.plies_from_null := fun _ => rfl
  have hrtH : ∀ x : Board,
      (Board.mm_rights k m.src m.tgt b.castling_rights x).halfmoves =
        x.halfmoves := fun _ => rfl
  have hseP : ∀ x : Board,
      (Board.mm_set_ep k m b.side x).plies_from_null = x.plies_from_null := by
    intro x
    unfold Board.mm_set_ep
    split_ifs <;> rfl
  have hseH : ∀ x : Board,
      (Board.mm_set_ep k m b.side x).halfmoves = x.halfmoves := by
    intro x
    unfold Board.mm_set_ep
    split_ifs <;> rfl
  have hceP : ∀ x : Board,
      (Board.mm_clear_ep k x).plies_from_null = x.plies_from_null := by
    intro x
    unfold Board.mm_clear_ep
    cases x.en_passant <;> rfl
  have hceH : ∀ x : Board, (Board.mm_clear_ep k x).halfmoves = x.halfmoves := by
    intro x
    unfold Board.mm_clear_ep
    cases x.en_passant <;> rfl
  have hplP : ∀ x : Board,
      (Board.mm_place k m x).plies_from_null = x.plies_from_null := by
    intro x
    unfold Board.mm_place
    split_ifs <;> rfl
  have hplH : ∀ x : Board, (Board.mm_place k m x).halfmoves = x.halfmoves := by
    intro x
    unfold Board.mm_place
    split_ifs <;> rfl
  have hspP : ∀ x : Board,
      (Board.mm_special k m b.side x).plies_from_null = x.plies_from_null := by
    intro x
    unfold Board.mm_special
    split_ifs <;> rfl
  have hspH : ∀ x : Board, (Board.mm_special k m b.side x).halfmoves =
      (if m.isEnpassant then x.halfmoves
       else if m.isCapture then 0 else x.halfmoves) := by
    intro x
    unfold Board.mm_special
    split_ifs <;> rfl
  have hrsP : ∀ x : Board,
      (Board.mm_remove_src k m x).plies_from_null = x.plies_from_null := by
    intro x
    unfold Board.mm_remove_src
    split_ifs <;> rfl
  have hrsH : ∀ x : Board, (Board.mm_remove_src k m x).halfmoves =
      (if m.piece = Piece.WP ∨ m.piece = Piece.BP then 0 else x.halfmoves) := by
    intro x
    unfold Board.mm_remove_src
    split_ifs <;> rfl
  have hclP : (Board.mm_clocks b).plies_from_null = b.plies_from_null + 1 := rfl
  have hclH : (Board.mm_clocks b).halfmoves = b.halfmoves + 1 := rfl
  unfold Board.make_move
  simp only [hrtP, hrtH, hseP, hseH, hceP, hceH, hplP, hplH, hspP, hspH,
    hrsP, hrsH, hclP, hclH]
  refine ⟨by trivial, ?_, ?_⟩ <;> split_ifs <;> simp_all <;> omega

/-- Move-list folds only append: membership is preserved. -/
theorem mem_foldl_of_mem {β : Type} (f : List Move → β → List Move)
    (hf : ∀ ml x a, a ∈ ml → a ∈ f ml x) :
    ∀ (l : List β) (ml : List Move) (a : Move), a ∈ ml → a ∈ l.foldl f ml := by
  intro l
  induction l with
  | nil => exact fun ml a h => h
  | cons x xs ih => exact fun ml a h => ih (f ml x) a (hf ml x a h)

/-- Every element of a move-list fold is an element of the initial list or
was produced by a step. -/
theorem mem_foldl_cases {β : Type} (P : Move → Prop) (f : List Move → β → List Move)
    (hf : ∀ ml x a, a ∈ f ml x → a ∈ ml ∨ P a) :
    ∀ (l : List β) (ml : List Move) (a : Move), a ∈ l.foldl f ml → a ∈ ml ∨ P a := by
  intro l
  induction l with
  | nil => exact fun ml a h => Or.inl h
  | cons x xs ih =>
    intro ml a h
    rcases ih (f ml x) a h with h2 | h2
    · exact hf ml x a h2
    · exact Or.inr h2

/-- Membership in `add_quiet`. -/
theorem mem_addQuiet (ml : List Move) (src tgt : Nat) (p : Piece) (c : Nat)
    (a : Move) :
    a ∈ addQuiet ml src tgt p c ↔ a ∈ ml ∨
      a = ⟨src, tgt, p, .WP, .WP, false, false, false, c != 0, false⟩ := by
  unfold addQuiet
  simp

/-- Membership in `add_capture`. -/
theorem mem_addCapture (ml : List Move) (src tgt : Nat) (p cap : Piece)
    (a : Move) :
    a ∈ addCapture ml src tgt p cap ↔ a ∈ ml ∨
      a = ⟨src, tgt, p, cap, .WP, true, false, false, false, false⟩ := by
  unfold addCapture
  simp

/-- Moves appended by the pawn-push adder never carry the castle flag. -/
theorem addPawnQuiet_cases (ml : List Move) (src tgt : Nat) (c : Color)
    (dp : Nat) (a : Move) (h : a ∈ addPawnQuiet ml src tgt c dp) :
    a ∈ ml ∨ a.isCastle = false := by
  unfold addPawnQuiet at h
  split_ifs at h <;> rcases List.mem_append.mp h with h2 | h2
  · exact Or.inl h2
  · rcases List.mem_map.mp h2 with ⟨pr, _, hpr⟩
    subst hpr
    exact Or.inr rfl
  · exact Or.inl h2
  · rcases List.mem_singleton.mp h2 with rfl
    exact Or.inr rfl

/-- Moves appended by the pawn-capture adder never carry the castle
flag. -/
theorem addPawnCapture_cases (ml : List Move) (src tgt : Nat) (c : Color)
    (cap : Piece) (a : Move) (h : a ∈ addPawnCapture ml src tgt c cap) :
    a ∈ ml ∨ a.isCastle = false := by
  unfold addPawnCapture at h
  split_ifs at h <;> rcases List.mem_append.mp h with h2 | h2
  · exact Or.inl h2
  · rcases List.mem_map.mp h2 with ⟨pr, _, hpr⟩
    subst hpr
    exact Or.inr rfl
  · exact Or.inl h2
  · rcases List.mem_singleton.mp h2 with rfl
    exact Or.inr rfl

/-- Moves appended by the en-passant adder never carry the castle flag. -/
theorem addEnpassant_cases (ml : List Move) (src tgt : Nat) (c : Color)
    (a : Move) (h : a ∈ addEnpassant ml src tgt c) :
    a ∈ ml ∨ a.isCastle = false := by
  unfold addEnpassant at h
  rcases List.mem_append.mp h with h2 | h2
  · exact Or.inl h2
  · rcases List.mem_singleton.mp h2 with rfl
    exact Or.inr rfl

/-- Moves produced by `Board::add_moves` never carry the castle flag. -/
theorem add_moves_no_castle (b : Board) (p : Piece) (source attacks : Nat)
    (ml : List Move) (m : Move) (h : m ∈ b.add_moves p source attacks ml) :
    m ∈ ml ∨ m.isCastle = false := by
  unfold Board.add_moves at h
  refine mem_foldl_cases (fun a => a.isCastle = false) _ ?_ _ _ _ h
  intro ml x a ha
  split_ifs at ha
  · rcases (mem_addCapture _ _ _ _ _ _).mp ha with h2 | h2
    · exact Or.inl h2
    · subst h2
      exact Or.inr rfl
  · rcases (mem_addQuiet _ _ _ _ _ _).mp ha with h2 | h2
    · exact Or.inl h2
    · subst h2
      exact Or.inr rfl

/-- The inner normal-capture fold of the pawn capture generator only adds
castle-free moves. -/
theorem pawn_capture_fold_cases (b : Board) (x : Nat) (l : List Nat)
    (ml : List Move) (a : Move)
    (h : a ∈ l.foldl
      (fun ml target => addPawnCapture ml x target b.side (b.get_captured_piece target)) ml) :
    a ∈ ml ∨ a.isCastle = false :=
  mem_foldl_cases (fun a => a.isCastle = false) _
    (fun ml2 t a2 h2 => addPawnCapture_cases ml2 x t b.side _ a2 h2) l ml a h

/-- Moves produced by the king generator never carry the castle flag. -/
theorem king_moves_no_castle (b : Board) (x1 : Nat) (ml : List Move) (m : Move)
    (h : m ∈ b.generate_king_moves x1 ml) : m ∈ ml ∨ m.isCastle = false :=
  add_moves_no_castle _ _ _ _ _ _ h

/-- Moves produced by the pawn capture generator never carry the castle
flag. -/
theorem pawn_captures_no_castle (b : Board) (x1 x2 x3 x4 : Nat)
    (ml : List Move) (m : Move) (h : m ∈ b.generate_pawn_captures x1 x2 x3 x4 ml) :
    m ∈ ml ∨ m.isCastle = false := by
  unfold Board.generate_pawn_captures at h
  refine mem_foldl_cases (fun a => a.isCastle = false) _ ?_ _ _ _ h
  intro ml x a ha
  rcases hep : b.en_passant with _ | epSquare <;> rw [hep] at ha
  · exact pawn_capture_fold_cases b x _ ml a ha
  · dsimp only at ha
    split_ifs at ha <;>
      first
      | exact pawn_capture_fold_cases b x _ ml a ha
      | · rcases addEnpassant_cases _ _ _ _ _ ha with h2 | h2
          · exact pawn_capture_fold_cases b x _ ml a h2
          · exact Or.inr h2

/-- Moves produced by the pawn push generator never carry the castle
flag. -/
theorem pawn_quiets_no_castle (b : Board) (x1 x2 x3 : Nat)
    (ml : List Move) (m : Move) (h : m ∈ b.generate_pawn_quiets x1 x2 x3 ml) :
    m ∈ ml ∨ m.isCastle = false := by
  unfold Board.generate_pawn_quiets at h
  refine mem_foldl_cases (fun a => a.isCastle = false) _ ?_ _ _ _ h
  intro ml x a ha
  dsimp only at ha
  split_ifs at ha <;>
    first
    | exact Or.inl ha
    | · rcases addPawnQuiet_cases _ _ _ _ _ _ ha with h2 | h2
        · exact Or.inl h2
        · exact Or.inr h2
    | · rcases addPawnQuiet_cases _ _ _ _ _ _ ha with h2 | h2
        · rcases addPawnQuiet_cases _ _ _ _ _ _ h2 with h3 | h3
          · exact Or.inl h3
          · exact Or.inr h3
        · exact Or.inr h2

/-- Moves produced by the knight generator never carry the castle flag. -/
theorem knight_moves_no_castle (b : Board) (x1 x2 : Nat)
    (ml : List Move) (m : Move) (h : m ∈ b.generate_knight_moves x1 x2 ml) :
    m ∈ ml ∨ m.isCastle = false := by
  unfold Board.generate_knight_moves at h
  refine mem_foldl_cases (fun a => a.isCastle = false) _ ?_ _ _ _ h
  intro ml x a ha
  exact add_moves_no_castle _ _ _ _ _ _ ha

/-- Moves produced by the bishop generator never carry the castle flag. -/
theorem bishop_moves_no_castle (b : Board) (x1 x2 x3 : Nat)
    (ml : List Move) (m : Move) (h : m ∈ b.generate_bishop_moves x1 x2 x3 ml) :
    m ∈ ml ∨ m.isCastle = false := by
  unfold Board.generate_bishop_moves at h
  refine mem_foldl_cases (fun a => a.isCastle = false) _ ?_ _ _ _ h
  intro ml x a ha
  exact add_moves_no_castle _ _ _ _ _ _ ha

/-- Moves produced by the rook generator never carry the castle flag. -/
theorem rook_moves_no_castle (b : Board) (x1 x2 x3 : Nat)
    (ml : List Move) (m : Move) (h : m ∈ b.generate_rook_moves x1 x2 x3 ml) :
    m ∈ ml ∨ m.isCastle = false := by
  unfold Board.generate_rook_moves at h
  refine mem_foldl_cases (fun a => a.isCastle = false) _ ?_ _ _ _ h
  intro ml x a ha
  exact add_moves_no_castle _ _ _ _ _ _ ha

/-- Moves produced by the queen generator never carry the castle flag. -/
theorem queen_moves_no_castle (b : Board) (x1 x2 x3 : Nat)
    (ml : List Move) (m : Move) (h : m ∈ b.generate_queen_moves x1 x2 x3 ml) :
    m ∈ ml ∨ m.isCastle = false := by
  unfold Board.generate_queen_moves at h
  refine mem_foldl_cases (fun a => a.isCastle = false) _ ?_ _ _ _ h
  intro ml x a ha
  exact add_moves_no_castle _ _ _ _ _ _ ha

/-- `add_moves` only appends. -/
theorem add_moves_mono (b : Board) (p : Piece) (source attacks : Nat)
    (ml : List Move) (m : Move) (h : m ∈ ml) :
    m ∈ b.add_moves p source attacks ml := by
  unfold Board.add_moves
  refine mem_foldl_of_mem _ ?_ _ _ _ h
  intro ml x a ha
  split_ifs
  · exact (mem_addCapture _ _ _ _ _ _).mpr (Or.inl ha)
  · exact (mem_addQuiet _ _ _ _ _ _).mpr (Or.inl ha)

/-- Every adder extends its move list. -/
theorem adders_mono (ml : List Move) (src tgt : Nat) (c : Color) (p cap : Piece)
    (n : Nat) (m : Move) (h : m ∈ ml) :
    m ∈ addQuiet ml src tgt p n ∧ m ∈ addCapture ml src tgt p cap ∧
    m ∈ addPawnQuiet ml src tgt c n ∧ m ∈ addPawnCapture ml src tgt c cap ∧
    m ∈ addEnpassant ml src tgt c := by
  unfold addQuiet addCapture addPawnQuiet addPawnCapture addEnpassant
  refine ⟨List.mem_append_left _ h, List.mem_append_left _ h, ?_, ?_,
    List.mem_append_left _ h⟩ <;> split_ifs <;> exact List.mem_append_left _ h

/-- The pawn capture generator only appends. -/
theorem pawn_captures_mono (b : Board) (x1 x2 x3 x4 : Nat)
    (ml : List Move) (m : Move) (h : m ∈ ml) :
    m ∈ b.generate_pawn_captures x1 x2 x3 x4 ml := by
  unfold Board.generate_pawn_captures
  refine mem_foldl_of_mem _ ?_ _ _ _ h
  intro ml x a ha
  dsimp only
  rcases hep : b.en_passant with _ | epSquare <;> dsimp only <;> split_ifs <;>
    first
    | (refine (adders_mono _ _ _ b.side .WP .WP 0 a ?_).2.2.2.2
       refine mem_foldl_of_mem _ ?_ _ _ _ ha
       intro ml2 t a2 h2
       exact (adders_mono ml2 x t b.side .WP _ 0 a2 h2).2.2.2.1)
    | (refine mem_foldl_of_mem _ ?_ _ _ _ ha
       intro ml2 t a2 h2
       exact (adders_mono ml2 x t b.side .WP _ 0 a2 h2).2.2.2.1)

/-- The pawn push generator only appends. -/
theorem pawn_quiets_mono (b : Board) (x1 x2 x3 : Nat)
    (ml : List Move) (m : Move) (h : m ∈ ml) :
    m ∈ b.generate_pawn_quiets x1 x2 x3 ml := by
  unfold Board.generate_pawn_quiets
  refine mem_foldl_of_mem _ ?_ _ _ _ h
  intro ml x a ha
  dsimp only
  split_ifs <;>
    first
    | exact ha
    | exact (adders_mono _ x _ b.side .WP .WP 0 a ha).2.2.1
    | exact (adders_mono _ x _ b.side .WP .WP 1 a
        ((adders_mono _ x _ b.side .WP .WP 0 a ha).2.2.1)).2.2.1
    | exact (adders_mono _ x _ b.side .WP .WP 1 a ha).2.2.1

/-- The knight generator only appends. -/
theorem knight_moves_mono (b : Board) (x1 x2 : Nat)
    (ml : List Move) (m : Move) (h : m ∈ ml) :
    m ∈ b.generate_knight_moves x1 x2 ml := by
  unfold Board.generate_knight_moves
  refine mem_foldl_of_mem _ ?_ _ _ _ h
  intro ml x a ha
  exact add_moves_mono _ _ _ _ _ _ ha

/-- The bishop generator only appends. -/
theorem bishop_moves_mono (b : Board) (x1 x2 x3 : Nat)
    (ml : List Move) (m : Move) (h : m ∈ ml) :
    m ∈ b.generate_bishop_moves x1 x2 x3 ml := by
  unfold Board.generate_bishop_moves
  refine mem_foldl_of_mem _ ?_ _ _ _ h
  intro ml x a ha
  exact add_moves_mono _ _ _ _ _ _ ha

/-- The rook generator only appends. -/
theorem rook_moves_mono (b : Board) (x1 x2 x3 : Nat)
    (ml : List Move) (m : Move) (h : m ∈ ml) :
    m ∈ b.generate_rook_moves x1 x2 x3 ml := by
  unfold Board.generate_rook_moves
  refine mem_foldl_of_mem _ ?_ _ _ _ h
  intro ml x a ha
  exact add_moves_mono _ _ _ _ _ _ ha

/-- The queen generator only appends. -/
theorem queen_moves_mono (b : Board) (x1 x2 x3 : Nat)
    (ml : List Move) (m : Move) (h : m ∈ ml) :
    m ∈ b.generate_queen_moves x1 x2 x3 ml := by
  unfold Board.generate_queen_moves
  refine mem_foldl_of_mem _ ?_ _ _ _ h
  intro ml x a ha
  exact add_moves_mono _ _ _ _ _ _ ha

/-- Membership in the castling generator: either already present, or the
kingside move under its guard, or the queenside move under its guard. -/
theorem mem_castling (b : Board) (threats : Nat) (ml : List Move) (m : Move) :
    m ∈ b.generate_castling_moves threats ml ↔
      m ∈ ml ∨
      ((hasKingside b.castling_rights b.side &&
        ((threats ||| b.occupancy) &&& KINGSIDE_OCCUPANCIES b.side == 0)) = true ∧
        m = kingsideCastleMove b.side) ∨
      ((hasQueenside b.castling_rights b.side &&
          (b.occupancy &&& QUEENSIDE_OCCUPANCIES b.side == 0) &&
          (threats &&& QUEENSIDE_THREATS b.side == 0)) = true ∧
        m = queensideCastleMove b.side) := by
  unfold Board.generate_castling_moves
  dsimp only
  split_ifs with h1 h2 h2 <;>
    simp only [mem_addQuiet, kingsideCastleMove, queensideCastleMove, h1, h2] <;>
    constructor <;>
    intro hx <;>
    rcases hx with hx | hx <;>
    simp_all <;>
    tauto

/-- C5 (amended): for every board whose side to move holds kingside
castling rights and is not in check, `generate_moves` emits the kingside
castling move exactly when the kingside squares of the per-side table are
both empty and not threatened (the `(threats | occupancy) &
KINGSIDE_OCCUPANCIES` test of the source). -/
theorem generate_moves_kingside_castling (b : Board)
    (hks : hasKingside b.castling_rights b.side = true)
    (hnochk : b.map_king_attackers = 0) :
    (kingsideCastleMove b.side ∈ b.generate_moves ↔
      (b.map_king_threats ||| b.occupancy) &&& KINGSIDE_OCCUPANCIES b.side = 0) := by
  have hrights : ¬(b.castling_rights = NO_RIGHTS) := by
    intro h0
    rw [h0] at hks
    cases hside : b.side <;> rw [hside] at hks <;>
      simp [hasKingside, NO_RIGHTS] at hks
  have hcnt : bbCount 0 = 0 := by decide
  have hcastle_true : (kingsideCastleMove b.side).isCastle = true := rfl
  unfold Board.generate_moves
  dsimp only
  rw [hnochk, hcnt]
  rw [if_neg (show ¬(0:Nat) = 1 by omega), if_neg (show ¬(0:Nat) = 1 by omega),
    if_neg (show ¬(0:Nat) > 1 by omega),
    if_pos (show b.castling_rights ≠ NO_RIGHTS ∧ (0:Nat) = 0 from ⟨hrights, rfl⟩)]
  constructor
  · intro hmem
    have hqn := queen_moves_no_castle b _ _ _ _ _ hmem
    rw [hcastle_true] at hqn
    rcases hqn with hmem | hmem
    swap
    · cases hmem
    have hrk := rook_moves_no_castle b _ _ _ _ _ hmem
    rw [hcastle_true] at hrk
    rcases hrk with hmem | hmem
    swap
    · cases hmem
    have hbi := bishop_moves_no_castle b _ _ _ _ _ hmem
    rw [hcastle_true] at hbi
    rcases hbi with hmem | hmem
    swap
    · cases hmem
    have hkn := knight_moves_no_castle b _ _ _ _ hmem
    rw [hcastle_true] at hkn
    rcases hkn with hmem | hmem
    swap
    · cases hmem
    have hpq := pawn_quiets_no_castle b _ _ _ _ _ hmem
    rw [hcastle_true] at hpq
    rcases hpq with hmem | hmem
    swap
    · cases hmem
    have hpc := pawn_captures_no_castle b _ _ _ _ _ _ hmem
    rw [hcastle_true] at hpc
    rcases hpc with hmem | hmem
    swap
    · cases hmem
    rcases (mem_castling b _ _ _).mp hmem with hmem | ⟨hguard, _⟩ | ⟨_, habs⟩
    · have hkm := king_moves_no_castle b _ _ _ hmem
      rw [hcastle_true] at hkm
      rcases hkm with hmem | hmem
      · cases hmem
      · cases hmem
    · rcases (Bool.and_eq_true _ _).mp hguard with ⟨_, hmask⟩
      simpa using hmask
    · cases hb : b.side <;> rw [hb] at habs <;>
        simp [kingsideCastleMove, queensideCastleMove, KINGSIDE_TARGETS,
          QUEENSIDE_TARGETS] at habs
  · intro hcond
    have hguard : (hasKingside b.castling_rights b.side &&
        ((b.map_king_threats ||| b.occupancy) &&&
          KINGSIDE_OCCUPANCIES b.side == 0)) = true := by
      rw [hks, hcond]
      rfl
    have hin := (mem_castling b b.map_king_threats
      (b.generate_king_moves b.map_king_threats []) _).mpr
      (Or.inr (Or.inl ⟨hguard, rfl⟩))
    exact queen_moves_mono b _ _ _ _ _
      (rook_moves_mono b _ _ _ _ _
        (bishop_moves_mono b _ _ _ _ _
          (knight_moves_mono b _ _ _ _
            (pawn_quiets_mono b _ _ _ _ _
              (pawn_captures_mono b _ _ _ _ _ _ hin)))))

/-- C5 (counterexample): a board where the side to move holds kingside
rights, is not in check and the kingside squares are empty, yet the
kingside castling move is not generated, because the squares are
threatened: emptiness alone (as the claim states) does not suffice. -/
theorem kingside_castling_claim_counterexample :
    hasKingside castleThreatBoard.castling_rights castleThreatBoard.side = true ∧
    castleThreatBoard.map_king_attackers = 0 ∧
    castleThreatBoard.occupancy &&&
      KINGSIDE_OCCUPANCIES castleThreatBoard.side = 0 ∧
    kingsideCastleMove castleThreatBoard.side ∉ castleThreatBoard.generate_moves := by
  decide

/-- Witness for `generate_moves_kingside_castling`: with a free and safe
kingside the castling move is generated. -/
theorem generate_moves_kingside_castling_witness :
    kingsideCastleMove castleFreeBoard.side ∈ castleFreeBoard.generate_moves :=
  (generate_moves_kingside_castling castleFreeBoard (by decide)
    (by decide)).mpr (by decide)

/-- Four-term XOR shuffles, proved bitwise. -/
theorem xor_rot (x y z : Nat) : x ^^^ z = y ^^^ z ^^^ x ^^^ y := by
  apply Nat.eq_of_testBit_eq
  intro i
  simp only [Nat.testBit_xor]
  cases x.testBit i <;> cases y.testBit i <;> cases z.testBit i <;> rfl

theorem xor_assoc4 (w x y z : Nat) : w ^^^ (x ^^^ y ^^^ z) = w ^^^ x ^^^ y ^^^ z := by
  apply Nat.eq_of_testBit_eq
  intro i
  simp only [Nat.testBit_xor]
  cases w.testBit i <;> cases x.testBit i <;> cases y.testBit i <;>
    cases z.testBit i <;> rfl

/-- XOR-folds of pointwise equal functions agree. -/
theorem xfold_congr {α : Type} {f g : α → Nat} :
    ∀ {l : List α}, (∀ a ∈ l, f a = g a) → xfold f l = xfold g l := by
  intro l
  induction l with
  | nil => intro _; rfl
  | cons a as ih =>
    intro h
    unfold xfold
    rw [h a (by simp), ih (fun x hx => h x (by simp [hx]))]

/-- Changing a key function at one list element changes the XOR-fold by
the two values at that element. -/
theorem xfold_update {α : Type} [DecidableEq α] {f g : α → Nat} {j : α} :
    ∀ {l : List α}, j ∈ l → l.Nodup → (∀ a ∈ l, a ≠ j → f a = g a) →
      xfold f l = xfold g l ^^^ f j ^^^ g j := by
  intro l
  induction l with
  | nil => intro h; cases h
  | cons a as ih =>
    intro hj hnd hfg
    rcases List.nodup_cons.mp hnd with ⟨hna, hnd2⟩
    rcases List.mem_cons.mp hj with rfl | hj2
    · have hcong : xfold f as = xfold g as :=
        xfold_congr (fun x hx => hfg x (by simp [hx]) (fun hxj => hna (hxj ▸ hx)))
      unfold xfold
      rw [hcong]
      exact xor_rot (f j) (g j) (xfold g as)
    · have ha : f a = g a := hfg a (by simp) (fun haj => hna (haj ▸ hj2))
      unfold xfold
      rw [ha, ih hj2 hnd2 (fun x hx hxj => hfg x (by simp [hx]) hxj)]
      exact xor_assoc4 (g a) (xfold g as) (f j) (g j)

/-- Setting a fresh bit adds exactly one piece key to the square XOR. -/
theorem squareXor_set (k : ZKeys) (p : Piece) (bb sq : Nat) (hsq : sq < 64)
    (hfresh : bb.testBit sq = false) :
    squareXor k p (bbSet bb sq) = squareXor k p bb ^^^ k.pieceKey p sq := by
  unfold squareXor bbSet
  rw [xfold_update (List.mem_range.mpr hsq) (List.nodup_range 64)
    (f := fun i => if (bb ||| 1 <<< sq).testBit i then k.pieceKey p i else 0)
    (g := fun i => if bb.testBit i then k.pieceKey p i else 0) ?_]
  · simp only [Nat.one_shiftLeft, Nat.testBit_or, Nat.testBit_two_pow, hfresh]
    simp [squareXor]
  · intro a _ ha
    simp only [Nat.one_shiftLeft, Nat.testBit_or, Nat.testBit_two_pow]
    have hne : ¬(sq = a) := fun h => ha h.symm
    simp [hne]

/-- Clearing a set bit removes exactly one piece key from the square
XOR. -/
theorem squareXor_pop (k : ZKeys) (p : Piece) (bb sq : Nat) (hsq : sq < 64)
    (hset : bb.testBit sq = true) :
    squareXor k p (bbPop bb sq) = squareXor k p bb ^^^ k.pieceKey p sq := by
  unfold squareXor bbPop bbNot M64
  rw [xfold_update (List.mem_range.mpr hsq) (List.nodup_range 64)
    (f := fun i => if (bb &&& ((2 ^ 64 - 1) ^^^ 1 <<< sq)).testBit i
      then k.pieceKey p i else 0)
    (g := fun i => if bb.testBit i then k.pieceKey p i else 0) ?_]
  · simp only [Nat.testBit_and, Nat.testBit_xor, Nat.one_shiftLeft,
      Nat.testBit_two_pow_sub_one, Nat.testBit_two_pow, hset]
    simp [hsq, squareXor]
  · intro a hamem ha
    have ha64 : a < 64 := List.mem_range.mp hamem
    simp only [Nat.testBit_and, Nat.testBit_xor, Nat.one_shiftLeft,
      Nat.testBit_two_pow_sub_one, Nat.testBit_two_pow]
    have hne : ¬(sq = a) := fun h => ha h.symm
    simp [hne, ha64]

/-- All twelve pieces are in `allPieces`, without duplicates. -/
theorem allPieces_mem_nodup : (∀ p : Piece, p ∈ allPieces) ∧ allPieces.Nodup := by
  constructor
  · intro p
    cases p <;> decide
  · decide

/-- Updating one piece bitboard changes the piece hash by the old and new
square XOR of that piece. -/
theorem hashPieces_update (k : ZKeys) (pieces : Piece → Nat) (p : Piece)
    (newbb : Nat) :
    hashPieces k (fun q => if q = p then newbb else pieces q) =
      hashPieces k pieces ^^^ squareXor k p newbb ^^^ squareXor k p (pieces p) := by
  unfold hashPieces
  rw [xfold_update (allPieces_mem_nodup.1 p) allPieces_mem_nodup.2
    (f := fun q => squareXor k q (if q = p then newbb else pieces q))
    (g := fun q => squareXor k q (pieces q)) ?_]
  · simp
  · intro a _ ha
    dsimp only
    rw [if_neg ha]

/-- Removing a present piece preserves the hash invariant. -/
theorem remove_piece_HashOk (k : ZKeys) (b : Board) (p : Piece) (sq : Nat)
    (hsq : sq < 64) (hbit : (b.pieces p).testBit sq = true)
    (h : HashOk k b) : HashOk k (b.remove_piece k p sq) := by
  unfold HashOk hashFromScratch at h ⊢
  show b.hash ^^^ k.pieceKey p sq =
    hashPieces k (fun q => if q = p then bbPop (b.pieces p) sq else b.pieces q) ^^^
      k.castleKey b.castling_rights ^^^
      (if b.side = Color.White then k.sideKey else 0) ^^^ epHashPart k b.en_passant
  rw [hashPieces_update, squareXor_pop k p (b.pieces p) sq hsq hbit, h]
  apply Nat.eq_of_testBit_eq
  intro i
  simp only [Nat.testBit_xor]
  cases (hashPieces k b.pieces).testBit i <;>
    cases (k.pieceKey p sq).testBit i <;>
    cases (squareXor k p (b.pieces p)).testBit i <;>
    cases (k.castleKey b.castling_rights).testBit i <;>
    cases ((if b.side = Color.White then k.sideKey else 0)).testBit i <;>
    cases (epHashPart k b.en_passant).testBit i <;>
    rfl

/-- Setting a piece on a fresh square preserves the hash invariant. -/
theorem set_piece_HashOk (k : ZKeys) (b : Board) (p : Piece) (sq : Nat)
    (hsq : sq < 64) (hbit : (b.pieces p).testBit sq = false)
    (h : HashOk k b) : HashOk k (b.set_piece k p sq) := by
  unfold HashOk hashFromScratch at h ⊢
  show b.hash ^^^ k.pieceKey p sq =
    hashPieces k (fun q => if q = p then bbSet (b.pieces p) sq else b.pieces q) ^^^
      k.castleKey b.castling_rights ^^^
      (if b.side = Color.White then k.sideKey else 0) ^^^ epHashPart k b.en_passant
  rw [hashPieces_update, squareXor_set k p (b.pieces p) sq hsq hbit, h]
  apply Nat.eq_of_testBit_eq
  intro i
  simp only [Nat.testBit_xor]
  cases (hashPieces k b.pieces).testBit i <;>
    cases (k.pieceKey p sq).testBit i <;>
    cases (squareXor k p (b.pieces p)).testBit i <;>
    cases (k.castleKey b.castling_rights).testBit i <;>
    cases ((if b.side = Color.White then k.sideKey else 0)).testBit i <;>
    cases (epHashPart k b.en_passant).testBit i <;>
    rfl

/-- Coordinates below 8 give the expected square index. -/
theorem squareFromCoords_eq (file rank : Nat) (hf : file < 8) (hr : rank < 8) :
    squareFromCoords file rank = rank * 8 + file := by
  unfold squareFromCoords
  interval_cases rank <;> interval_cases file <;> rfl

/-- A successful placement loop whose final token count is 8 starts every
suffix with a token count of at most 8 (each rank segment sums to exactly
8). -/
theorem fenLoop_tc_le (k : ZKeys) :
    ∀ (cs : List Char) (b : Board) (file rank tc : Nat) (b2 : Board) (tc2 : Nat),
      fenBoardLoop k cs b file rank tc = some (b2, tc2) → tc2 = 8 → tc ≤ 8 := by
  intro cs
  induction cs with
  | nil =>
    intro b file rank tc b2 tc2 h h8
    unfold fenBoardLoop at h
    cases h
    omega
  | cons c cs ih =>
    intro b file rank tc b2 tc2 h h8
    unfold fenBoardLoop at h
    split_ifs at h with hsl hnot8 hdig
    · omega
    · have := ih _ _ _ _ _ _ h h8
      omega
    · rcases hpc : pieceOfChar c with _ | p <;> rw [hpc] at h
      · cases h
      · have := ih _ _ _ _ _ _ h h8
        omega

/-- Setting a piece on a fresh square preserves the pieces-only hash
equation (the loop invariant of the FEN placement parser). -/
theorem set_piece_hashPieces (k : ZKeys) (b : Board) (p : Piece) (sq : Nat)
    (hsq : sq < 64) (hfresh : (b.pieces p).testBit sq = false)
    (h : b.hash = hashPieces k b.pieces) :
    (b.set_piece k p sq).hash = hashPieces k (b.set_piece k p sq).pieces := by
  show b.hash ^^^ k.pieceKey p sq =
    hashPieces k (fun q => if q = p then bbSet (b.pieces p) sq else b.pieces q)
  rw [hashPieces_update, squareXor_set k p (b.pieces p) sq hsq hfresh, h]
  apply Nat.eq_of_testBit_eq
  intro i
  simp only [Nat.testBit_xor]
  cases (hashPieces k b.pieces).testBit i <;>
    cases (k.pieceKey p sq).testBit i <;>
    cases (squareXor k p (b.pieces p)).testBit i <;>
    rfl

/-- Invariant of the FEN placement loop: when the input has at most 8 rank
segments (at most 7 slashes remain), a successful loop keeps the
pieces-only hash equation and leaves every other parsed field untouched.
The geometric invariant — every occupied square lies strictly before the
current (rank, token-count) position — guarantees that each square is set
at most once, so the XOR updates never cancel. -/
theorem fenLoop_invariant (k : ZKeys) :
    ∀ (cs : List Char) (b : Board) (file rank tc : Nat) (b2 : Board) (tc2 : Nat),
      fenBoardLoop k cs b file rank tc = some (b2, tc2) → tc2 = 8 →
      rank + cs.count '/' ≤ 7 →
      file = tc % 8 →
      (∀ p i, (b.pieces p).testBit i = true →
        i < 64 ∧ (i / 8 < rank ∨ (i / 8 = rank ∧ i % 8 < tc))) →
      b.hash = hashPieces k b.pieces →
      b2.hash = hashPieces k b2.pieces ∧ b2.side = b.side ∧
        b2.castling_rights = b.castling_rights ∧ b2.en_passant = b.en_passant ∧
        b2.halfmoves = b.halfmoves := by
  intro cs
  induction cs with
  | nil =>
    intro b file rank tc b2 tc2 h h8 hsl hf h5 hh
    unfold fenBoardLoop at h
    simp only [Option.some.injEq, Prod.mk.injEq] at h
    obtain ⟨hb, htc⟩ := h
    subst hb
    exact ⟨hh, rfl, rfl, rfl, rfl⟩
  | cons c cs ih =>
    intro b file rank tc b2 tc2 h h8 hsl hf h5 hh
    unfold fenBoardLoop at h
    split_ifs at h with hc htc8 hdig
    · -- slash branch (the token-count check passed: tc = 8)
      have htc : tc = 8 := by omega
      subst hc
      rw [List.count_cons_self] at hsl
      have hrank7 : rank + 1 ≤ 7 := by omega
      refine ih b file ((rank + 1) % 8) 0 b2 tc2 h h8 (by omega) (by omega) ?_ hh
      intro p i hbit
      rcases h5 p i hbit with ⟨hi64, hpos⟩
      refine ⟨hi64, Or.inl ?_⟩
      omega
    · -- digit branch
      dsimp only at h
      have hcne : ('/' : Char) ≠ c := by
        intro heq
        rw [← heq] at hdig
        exact absurd hdig.1 (by decide)
      rw [List.count_cons_of_ne hcne] at hsl
      refine ih b ((file + (c.toNat - 48)) % 8) rank (tc + (c.toNat - 48)) b2 tc2
        h h8 hsl (by omega) ?_ hh
      intro p i hbit
      rcases h5 p i hbit with ⟨hi64, hpos⟩
      refine ⟨hi64, ?_⟩
      omega
    · -- piece branch
      rcases hpc : pieceOfChar c with _ | p <;> rw [hpc] at h
      · cases h
      · have hcne : ('/' : Char) ≠ c := by
          intro heq
          rw [← heq] at hpc
          cases hpc
        rw [List.count_cons_of_ne hcne] at hsl
        have htc7 : tc + 1 ≤ 8 := fenLoop_tc_le k _ _ _ _ _ _ _ h h8
        have hfile : file = tc := by omega
        have hrank7 : rank ≤ 7 := by omega
        have hsq : squareFromCoords file rank = rank * 8 + file :=
          squareFromCoords_eq file rank (by omega) (by omega)
        have hsq64 : squareFromCoords file rank < 64 := by
          rw [hsq]
          omega
        have hfresh : (b.pieces p).testBit (squareFromCoords file rank) = false := by
          rcases hb : (b.pieces p).testBit (squareFromCoords file rank) with _ | _
          · rfl
          · rcases h5 p _ hb with ⟨_, hpos⟩
            rw [hsq] at hpos
            omega
        have hnew5 : ∀ q i,
            ((b.set_piece k p (squareFromCoords file rank)).pieces q).testBit i = true →
            i < 64 ∧ (i / 8 < rank ∨ (i / 8 = rank ∧ i % 8 < tc + 1)) := by
          intro q i hbit
          by_cases hq : q = p
          · have hbit2 : (bbSet (b.pieces p) (squareFromCoords file rank)).testBit i
                = true := by
              rw [show ((b.set_piece k p (squareFromCoords file rank)).pieces q)
                = bbSet (b.pieces p) (squareFromCoords file rank) by
                  show (if q = p then _ else _) = _
                  rw [if_pos hq]] at hbit
              exact hbit
            unfold bbSet at hbit2
            rw [Nat.one_shiftLeft, Nat.testBit_or] at hbit2
            rcases Bool.or_eq_true_iff.mp hbit2 with hbit3 | hbit3
            · rcases h5 p i hbit3 with ⟨hi64, hpos⟩
              exact ⟨hi64, by omega⟩
            · rw [Nat.testBit_two_pow] at hbit3
              have hieq : squareFromCoords file rank = i := of_decide_eq_true hbit3
              rw [← hieq, hsq]
              refine ⟨by omega, Or.inr ⟨by omega, by omega⟩⟩
          · have hbit2 : (b.pieces q).testBit i = true := by
              rw [show ((b.set_piece k p (squareFromCoords file rank)).pieces q)
                = b.pieces q by
                  show (if q = p then _ else _) = _
                  rw [if_neg hq]] at hbit
              exact hbit
            rcases h5 q i hbit2 with ⟨hi64, hpos⟩
            exact ⟨hi64, by omega⟩
        have hnewh := set_piece_hashPieces k b p (squareFromCoords file rank)
          hsq64 hfresh hh
        exact ih (b.set_piece k p (squareFromCoords file rank))
          ((file + 1) % 8) rank (tc + 1) b2 tc2 h h8 hsl (by omega) hnew5 hnewh

/-- The XOR-fold of the zero function vanishes. -/
theorem xfold_zero {α : Type} : ∀ l : List α, xfold (fun _ => (0 : Nat)) l = 0 := by
  intro l
  induction l with
  | nil => rfl
  | cons a as ih =>
    unfold xfold
    rw [ih]
    rfl

/-- The hash of an empty piece set is zero, for any key set. -/
theorem hashPieces_zero (k : ZKeys) : hashPieces k (fun _ => 0) = 0 := by
  unfold hashPieces
  rw [xfold_congr (g := fun _ => (0 : Nat)) ?_, xfold_zero]
  intro p _
  unfold squareXor
  rw [xfold_congr (g := fun _ => (0 : Nat)) ?_, xfold_zero]
  intro i _
  rw [Nat.zero_testBit]
  rfl

/-- C3, part 1: a board parsed from a FEN string satisfies the hash
invariant: the incrementally built hash equals the Zobrist hash
recomputed from scratch. -/
theorem parseFen_HashOk (k : ZKeys) (s : List Char) (b : Board)
    (hp : parseFen k s = some b) (hranks : fenRanksOk s = true) : HashOk k b := by
  unfold parseFen at hp
  unfold fenRanksOk at hranks
  rcases hsp : (splitWs s).take 6 with _ |
    ⟨placement, _ | ⟨sideStr, _ | ⟨castleStr, _ | ⟨epStr, _ |
      ⟨hmStr, _ | ⟨full, _ | ⟨x, rest⟩⟩⟩⟩⟩⟩⟩ <;>
    rw [hsp] at hp hranks <;>
    try cases hp
  dsimp only at hp hranks
  have hcount : placement.count '/' ≤ 7 := of_decide_eq_true hranks
  rcases hl : fenBoardLoop k placement Board.new 0 0 0 with _ | ⟨b0, tc⟩ <;>
    rw [hl] at hp
  · cases hp
  dsimp only at hp
  by_cases h8 : tc ≠ 8
  · rw [if_pos h8] at hp
    cases hp
  rw [if_neg h8] at hp
  have hinv := fenLoop_invariant k placement Board.new 0 0 0 b0 tc hl
    (by omega) (by simpa using hcount) (by omega)
    (by
      intro p i hbit
      rw [show Board.new.pieces p = 0 from rfl, Nat.zero_testBit] at hbit
      cases hbit)
    (by
      show (0 : Nat) = hashPieces k (fun _ => 0)
      exact (hashPieces_zero k).symm)
  rcases hinv with ⟨hh0, hside0, hcr0, hep0, hhm0⟩
  by_cases hw : sideStr = ['w']
  · rw [if_pos hw] at hp
    dsimp only at hp
    rcases hcrp : parseCastlingRights castleStr with _ | rights <;>
      rw [hcrp] at hp
    · cases hp
    dsimp only at hp
    by_cases hdash : epStr = ['-']
    · rw [if_pos hdash] at hp
      dsimp only at hp
      rcases hhm : parseNat hmStr with _ | hm <;> rw [hhm] at hp
      · cases hp
      simp only [Option.some.injEq] at hp
      subst hp
      unfold HashOk hashFromScratch epHashPart
      show b0.hash ^^^ k.sideKey ^^^ k.castleKey rights =
        hashPieces k b0.pieces ^^^ k.castleKey rights ^^^
          (if Color.White = Color.White then k.sideKey else 0) ^^^ 0
      rw [hh0, if_pos rfl]
      apply Nat.eq_of_testBit_eq
      intro i
      simp only [Nat.testBit_xor, Nat.zero_testBit, Bool.xor_false]
      cases (hashPieces k b0.pieces).testBit i <;>
        cases (k.sideKey).testBit i <;>
        cases (k.castleKey rights).testBit i <;> rfl
    · rw [if_neg hdash] at hp
      rcases hepp : parseSquare epStr with _ | sq <;> rw [hepp] at hp
      · cases hp
      dsimp only at hp
      rcases hhm : parseNat hmStr with _ | hm <;> rw [hhm] at hp
      · cases hp
      simp only [Option.some.injEq] at hp
      subst hp
      unfold HashOk hashFromScratch epHashPart
      show b0.hash ^^^ k.sideKey ^^^ k.castleKey rights ^^^ k.epKey sq =
        hashPieces k b0.pieces ^^^ k.castleKey rights ^^^
          (if Color.White = Color.White then k.sideKey else 0) ^^^ k.epKey sq
      rw [hh0, if_pos rfl]
      apply Nat.eq_of_testBit_eq
      intro i
      simp only [Nat.testBit_xor, Nat.zero_testBit, Bool.xor_false]
      cases (hashPieces k b0.pieces).testBit i <;>
        cases (k.sideKey).testBit i <;>
        cases (k.castleKey rights).testBit i <;>
        cases (k.epKey sq).testBit i <;> rfl
  · rw [if_neg hw] at hp
    by_cases hblack : sideStr = ['b']
    swap
    · rw [if_neg hblack] at hp
      cases hp
    rw [if_pos hblack] at hp
    dsimp only at hp
    rcases hcrp : parseCastlingRights castleStr with _ | rights <;>
      rw [hcrp] at hp
    · cases hp
    dsimp only at hp
    by_cases hdash : epStr = ['-']
    · rw [if_pos hdash] at hp
      dsimp only at hp
      rcases hhm : parseNat hmStr with _ | hm <;> rw [hhm] at hp
      · cases hp
      simp only [Option.some.injEq] at hp
      subst hp
      unfold HashOk hashFromScratch epHashPart
      show b0.hash ^^^ k.castleKey rights =
        hashPieces k b0.pieces ^^^ k.castleKey rights ^^^
          (if Color.Black = Color.White then k.sideKey else 0) ^^^ 0
      rw [hh0, if_neg (by decide)]
      apply Nat.eq_of_testBit_eq
      intro i
      simp only [Nat.testBit_xor, Nat.zero_testBit, Bool.xor_false]
    · rw [if_neg hdash] at hp
      rcases hepp : parseSquare epStr with _ | sq <;> rw [hepp] at hp
      · cases hp
      dsimp only at hp
      rcases hhm : parseNat hmStr with _ | hm <;> rw [hhm] at hp
      · cases hp
      simp only [Option.some.injEq] at hp
      subst hp
      unfold HashOk hashFromScratch epHashPart
      show b0.hash ^^^ k.castleKey rights ^^^ k.epKey sq =
        hashPieces k b0.pieces ^^^ k.castleKey rights ^^^
          (if Color.Black = Color.White then k.sideKey else 0) ^^^ k.epKey sq
      rw [hh0, if_neg (by decide)]
      apply Nat.eq_of_testBit_eq
      intro i
      simp only [Nat.testBit_xor, Nat.zero_testBit, Bool.xor_false]

/-- Removing a present piece keeps the hash equal to the piece hash XOR
any fixed remainder. -/
theorem remove_piece_phash {k : ZKeys} (x : Board) (p : Piece) (sq : Nat)
    {e : Nat} (hsq : sq < 64) (hbit : (x.pieces p).testBit sq = true)
    (h : x.hash = hashPieces k x.pieces ^^^ e) :
    (x.remove_piece k p sq).hash =
      hashPieces k ((x.remove_piece k p sq).pieces) ^^^ e := by
  show x.hash ^^^ k.pieceKey p sq =
    hashPieces k (fun q => if q = p then bbPop (x.pieces p) sq else x.pieces q) ^^^ e
  rw [hashPieces_update, squareXor_pop k p (x.pieces p) sq hsq hbit, h]
  apply Nat.eq_of_testBit_eq
  intro i
  simp only [Nat.testBit_xor]
  cases (hashPieces k x.pieces).testBit i <;>
    cases (k.pieceKey p sq).testBit i <;>
    cases (squareXor k p (x.pieces p)).testBit i <;>
    cases e.testBit i <;> rfl

/-- Setting a piece on a fresh square keeps the hash equal to the piece
hash XOR any fixed remainder. -/
theorem set_piece_phash {k : ZKeys} (x : Board) (p : Piece) (sq : Nat)
    {e : Nat} (hsq : sq < 64) (hbit : (x.pieces p).testBit sq = false)
    (h : x.hash = hashPieces k x.pieces ^^^ e) :
    (x.set_piece k p sq).hash =
      hashPieces k ((x.set_piece k p sq).pieces) ^^^ e := by
  show x.hash ^^^ k.pieceKey p sq =
    hashPieces k (fun q => if q = p then bbSet (x.pieces p) sq else x.pieces q) ^^^ e
  rw [hashPieces_update, squareXor_set k p (x.pieces p) sq hsq hbit, h]
  apply Nat.eq_of_testBit_eq
  intro i
  simp only [Nat.testBit_xor]
  cases (hashPieces k x.pieces).testBit i <;>
    cases (k.pieceKey p sq).testBit i <;>
    cases (squareXor k p (x.pieces p)).testBit i <;>
    cases e.testBit i <;> rfl

/-- Stage 2 of make_move keeps the hash / piece-hash relation. -/
theorem mm_remove_src_phash {k : ZKeys} (m : Move) (x : Board) {e : Nat}
    (hsq : m.src < 64) (hbit : (x.pieces m.piece).testBit m.src = true)
    (h : x.hash = hashPieces k x.pieces ^^^ e) :
    (Board.mm_remove_src k m x).hash =
      hashPieces k ((Board.mm_remove_src k m x).pieces) ^^^ e := by
  unfold Board.mm_remove_src
  dsimp only
  split_ifs with hp
  · exact remove_piece_phash x m.piece m.src hsq hbit h
  · exact remove_piece_phash x m.piece m.src hsq hbit h

/-- Stages 3-5 of make_move keep the hash / piece-hash relation. -/
theorem mm_special_phash {k : ZKeys} (m : Move) (side : Color) (x : Board)
    {e : Nat}
    (htgt : m.tgt < 64)
    (hep : m.isEnpassant = true →
      PUSH side.flip m.tgt < 64 ∧
      (x.pieces m.capture).testBit (PUSH side.flip m.tgt) = true)
    (hcap : m.isEnpassant = false → m.isCapture = true →
      (x.pieces m.capture).testBit m.tgt = true)
    (hcas : m.isEnpassant = false → m.isCapture = false → m.isCastle = true →
      (ROOK_CASTLING_MOVE m.tgt).1 < 64 ∧
      (x.pieces side.rook).testBit (ROOK_CASTLING_MOVE m.tgt).1 = true ∧
      (ROOK_CASTLING_MOVE m.tgt).2 < 64 ∧
      ((x.remove_piece k side.rook (ROOK_CASTLING_MOVE m.tgt).1).pieces
          side.rook).testBit (ROOK_CASTLING_MOVE m.tgt).2 = false)
    (h : x.hash = hashPieces k x.pieces ^^^ e) :
    (Board.mm_special k m side x).hash =
      hashPieces k ((Board.mm_special k m side x).pieces) ^^^ e := by
  unfold Board.mm_special
  dsimp only
  split_ifs with h1 h2 h3
  · rcases hep h1 with ⟨hlt, hb⟩
    exact remove_piece_phash x m.capture (PUSH side.flip m.tgt) hlt hb h
  · have h1f : m.isEnpassant = false := Bool.eq_false_iff.mpr h1
    exact remove_piece_phash x m.capture m.tgt htgt (hcap h1f h2) h
  · have h1f : m.isEnpassant = false := Bool.eq_false_iff.mpr h1
    have h2f : m.isCapture = false := Bool.eq_false_iff.mpr h2
    rcases hcas h1f h2f h3 with ⟨hl1, hb1, hl2, hb2⟩
    exact set_piece_phash _ side.rook (ROOK_CASTLING_MOVE m.tgt).2 hl2 hb2
      (remove_piece_phash x side.rook (ROOK_CASTLING_MOVE m.tgt).1 hl1 hb1 h)
  · exact h

/-- Stage 6 of make_move keeps the hash / piece-hash relation. -/
theorem mm_place_phash {k : ZKeys} (m : Move) (x : Board) {e : Nat}
    (htgt : m.tgt < 64)
    (hfresh : (x.pieces (if m.isPromotion then m.promotion else m.piece)).testBit
      m.tgt = false)
    (h : x.hash = hashPieces k x.pieces ^^^ e) :
    (Board.mm_place k m x).hash =
      hashPieces k ((Board.mm_place k m x).pieces) ^^^ e := by
  unfold Board.mm_place
  split_ifs with hpr
  · rw [if_pos hpr] at hfresh
    exact set_piece_phash x m.promotion m.tgt htgt hfresh h
  · rw [if_neg hpr] at hfresh
    exact set_piece_phash x m.piece m.tgt htgt hfresh h

/-- Stage 7a of make_move cancels the en-passant key from the hash. -/
theorem mm_clear_ep_phash {k : ZKeys} (x : Board) {e : Nat}
    (h : x.hash = hashPieces k x.pieces ^^^ e ^^^ epHashPart k x.en_passant) :
    (Board.mm_clear_ep k x).hash =
      hashPieces k ((Board.mm_clear_ep k x).pieces) ^^^ e := by
  unfold Board.mm_clear_ep
  cases hx : x.en_passant with
  | none =>
    dsimp only
    rw [h, hx]
    show _ = hashPieces k x.pieces ^^^ e
    rw [show epHashPart k none = 0 from rfl, Nat.xor_zero]
  | some sq =>
    dsimp only
    rw [h, hx]
    show hashPieces k x.pieces ^^^ e ^^^ epHashPart k (some sq) ^^^ k.epKey sq =
      hashPieces k x.pieces ^^^ e
    rw [show epHashPart k (some sq) = k.epKey sq from rfl]
    apply Nat.eq_of_testBit_eq
    intro i
    simp only [Nat.testBit_xor]
    cases (hashPieces k x.pieces).testBit i <;>
      cases e.testBit i <;>
      cases (k.epKey sq).testBit i <;> rfl

/-- Stage 7a of make_move always clears the en-passant square. -/
theorem mm_clear_ep_ep (k : ZKeys) (x : Board) :
    (Board.mm_clear_ep k x).en_passant = none := by
  unfold Board.mm_clear_ep
  cases hx : x.en_passant with
  | none => exact hx
  | some sq => rfl

/-- Stage 7b of make_move adds exactly the key of the en-passant square it
sets. -/
theorem mm_set_ep_phash {k : ZKeys} (m : Move) (side : Color) (x : Board)
    {e : Nat} (h : x.hash = hashPieces k x.pieces ^^^ e)
    (hx : x.en_passant = none) :
    (Board.mm_set_ep k m side x).hash =
      hashPieces k ((Board.mm_set_ep k m side x).pieces) ^^^ e ^^^
        epHashPart k ((Board.mm_set_ep k m side x).en_passant) := by
  unfold Board.mm_set_ep
  split_ifs with hd
  · dsimp only
    rw [h]
    rfl
  · rw [h, hx]
    show hashPieces k x.pieces ^^^ e =
      hashPieces k x.pieces ^^^ e ^^^ epHashPart k none
    rw [show epHashPart k none = 0 from rfl, Nat.xor_zero]

/-- Stage 2 of make_move keeps the en-passant square, castling rights and
side. -/
theorem mm_remove_src_fields (k : ZKeys) (m : Move) (x : Board) :
    (Board.mm_remove_src k m x).en_passant = x.en_passant ∧
    (Board.mm_remove_src k m x).castling_rights = x.castling_rights ∧
    (Board.mm_remove_src k m x).side = x.side := by
  unfold Board.mm_remove_src
  dsimp only
  split_ifs <;> exact ⟨rfl, rfl, rfl⟩

/-- Stages 3-5 of make_move keep the en-passant square, castling rights
and side. -/
theorem mm_special_fields (k : ZKeys) (m : Move) (side : Color) (x : Board) :
    (Board.mm_special k m side x).en_passant = x.en_passant ∧
    (Board.mm_special k m side x).castling_rights = x.castling_rights ∧
    (Board.mm_special k m side x).side = x.side := by
  unfold Board.mm_special
  dsimp only
  split_ifs <;> exact ⟨rfl, rfl, rfl⟩

/-- Stage 6 of make_move keeps the en-passant square, castling rights and
side. -/
theorem mm_place_fields (k : ZKeys) (m : Move) (x : Board) :
    (Board.mm_place k m x).en_passant = x.en_passant ∧
    (Board.mm_place k m x).castling_rights = x.castling_rights ∧
    (Board.mm_place k m x).side = x.side := by
  unfold Board.mm_place
  split_ifs <;> exact ⟨rfl, rfl, rfl⟩

/-- XOR bookkeeping of the final make_move steps: toggling the old and new
castle keys and the side key turns the scratch hash of the old side and
rights into the scratch hash of the new side and rights. -/
theorem hash_side_flip_step (s c1 c2 hp ep : Nat) (c : Color) :
    hp ^^^ (c1 ^^^ (if c = Color.White then s else 0)) ^^^ ep ^^^ c1 ^^^ c2 ^^^ s =
      hp ^^^ c2 ^^^ (if c.flip = Color.White then s else 0) ^^^ ep := by
  cases c
  · rw [if_pos rfl, if_neg (by decide)]
    apply Nat.eq_of_testBit_eq
    intro i
    simp only [Nat.testBit_xor, Nat.zero_testBit, Bool.xor_false]
    cases hp.testBit i <;> cases c1.testBit i <;> cases c2.testBit i <;>
      cases s.testBit i <;> cases ep.testBit i <;> rfl
  · rw [if_neg (by decide), if_pos (by decide)]
    apply Nat.eq_of_testBit_eq
    intro i
    simp only [Nat.testBit_xor, Nat.zero_testBit, Bool.xor_false]
    cases hp.testBit i <;> cases c1.testBit i <;> cases c2.testBit i <;>
      cases s.testBit i <;> cases ep.testBit i <;> rfl

/-- One make_move step preserves the hash invariant, under the hash
well-formedness side conditions of the move. -/
theorem make_move_HashOk (k : ZKeys) (b : Board) (m : Move)
    (hwf : moveHashWF k b m) (h : HashOk k b) : HashOk k (b.make_move k m) := by
  obtain ⟨hsrc64, hsrcbit, htgt64, hep, hcap, hcas, hfresh⟩ := hwf
  unfold HashOk hashFromScratch at h
  have h1 : (Board.mm_clocks b).hash =
      hashPieces k (Board.mm_clocks b).pieces ^^^
        ((k.castleKey b.castling_rights ^^^
            (if b.side = Color.White then k.sideKey else 0)) ^^^
          epHashPart k b.en_passant) := by
    show b.hash = hashPieces k b.pieces ^^^
      ((k.castleKey b.castling_rights ^^^
          (if b.side = Color.White then k.sideKey else 0)) ^^^
        epHashPart k b.en_passant)
    rw [h]
    apply Nat.eq_of_testBit_eq
    intro i
    simp only [Nat.testBit_xor]
    cases (hashPieces k b.pieces).testBit i <;>
      cases (k.castleKey b.castling_rights).testBit i <;>
      cases ((if b.side = Color.White then k.sideKey else 0)).testBit i <;>
      cases (epHashPart k b.en_passant).testBit i <;> rfl
  have h2 := mm_remove_src_phash m (Board.mm_clocks b) hsrc64 hsrcbit h1
  have h3 := mm_special_phash m b.side
    (Board.mm_remove_src k m (Board.mm_clocks b)) htgt64 hep hcap hcas h2
  have h4 := mm_place_phash m
    (Board.mm_special k m b.side (Board.mm_remove_src k m (Board.mm_clocks b)))
    htgt64 hfresh h3
  have hep4 : (Board.mm_place k m (Board.mm_special k m b.side
      (Board.mm_remove_src k m (Board.mm_clocks b)))).en_passant =
      b.en_passant := by
    rw [(mm_place_fields k m _).1, (mm_special_fields k m b.side _).1,
      (mm_remove_src_fields k m _).1]
    rfl
  have h4x : (Board.mm_place k m (Board.mm_special k m b.side
      (Board.mm_remove_src k m (Board.mm_clocks b)))).hash =
      hashPieces k (Board.mm_place k m (Board.mm_special k m b.side
        (Board.mm_remove_src k m (Board.mm_clocks b)))).pieces ^^^
        (k.castleKey b.castling_rights ^^^
          (if b.side = Color.White then k.sideKey else 0)) ^^^
        epHashPart k (Board.mm_place k m (Board.mm_special k m b.side
          (Board.mm_remove_src k m (Board.mm_clocks b)))).en_passant := by
    rw [h4, hep4]
    apply Nat.eq_of_testBit_eq
    intro i
    simp only [Nat.testBit_xor]
    cases (hashPieces k (Board.mm_place k m (Board.mm_special k m b.side
      (Board.mm_remove_src k m (Board.mm_clocks b)))).pieces).testBit i <;>
      cases (k.castleKey b.castling_rights).testBit i <;>
      cases ((if b.side = Color.White then k.sideKey else 0)).testBit i <;>
      cases (epHashPart k b.en_passant).testBit i <;> rfl
  have h5 := mm_clear_ep_phash
    (Board.mm_place k m (Board.mm_special k m b.side
      (Board.mm_remove_src k m (Board.mm_clocks b)))) h4x
  have h6 := mm_set_ep_phash m b.side
    (Board.mm_clear_ep k (Board.mm_place k m (Board.mm_special k m b.side
      (Board.mm_remove_src k m (Board.mm_clocks b)))))
    h5 (mm_clear_ep_ep k _)
  show (Board.make_move k b m).hash = _
  unfold Board.make_move Board.mm_rights
  dsimp only
  rw [h6]
  exact hash_side_flip_step k.sideKey (k.castleKey b.castling_rights)
    (k.castleKey (rightsUpdate b.castling_rights m.src m.tgt))
    (hashPieces k (Board.mm_set_ep k m b.side (Board.mm_clear_ep k
      (Board.mm_place k m (Board.mm_special k m b.side
        (Board.mm_remove_src k m (Board.mm_clocks b)))))).pieces)
    (epHashPart k (Board.mm_set_ep k m b.side (Board.mm_clear_ep k
      (Board.mm_place k m (Board.mm_special k m b.side
        (Board.mm_remove_src k m (Board.mm_clocks b)))))).en_passant)
    b.side

/-- A sequence of well-formed moves preserves the hash invariant. -/
theorem seq_HashOk (k : ZKeys) :
    ∀ (ms : List Move) (b : Board), HashOk k b → seqHashWF k b ms →
      HashOk k (applyMoves k b ms) := by
  intro ms
  induction ms with
  | nil => intro b h _; exact h
  | cons m ms ih =>
    intro b h hwf
    exact ih _ (make_move_HashOk k b m hwf.1 h) hwf.2

/-- C3: for every board obtained by parsing a FEN string (with at most the
seven rank separators a FEN has) and applying any sequence of moves via
make_move, where each move satisfies the hash well-formedness side
conditions that legality guarantees (mover on its source square, captured
piece where it is removed, castling rook on its corner, target square
free), the incrementally maintained hash field equals the Zobrist hash
recomputed from scratch over the present pieces, castling rights,
side-to-move flag and en-passant square if set. -/
theorem hash_invariant_parse_and_play (k : ZKeys) (s : List Char) (b : Board)
    (ms : List Move) (hp : parseFen k s = some b) (hranks : fenRanksOk s = true)
    (hwf : seqHashWF k b ms) : HashOk k (applyMoves k b ms) :=
  seq_HashOk k ms b (parseFen_HashOk k s b hp hranks) hwf

/-- Witness for C3: the start position, followed by e2e4 and b8c6. -/
theorem hash_invariant_parse_and_play_witness :
    HashOk zeroKeys (applyMoves zeroKeys c3Board [c3MoveA, c3MoveB]) :=
  hash_invariant_parse_and_play zeroKeys c3Fen c3Board [c3MoveA, c3MoveB]
    rfl (by decide) ⟨by decide, by decide, trivial⟩

end Carp
